import Mathlib

/-!
Verification of the multi-pattern messaging client (rosbridge_package).

Shallow embedding of the Python sources:
* src/rosclient/zmqclient.py           (create_ros_message)
* src/rosclientmodel/lbrosclient/zmq_client.py   (ZMQClient: codec, registry, loops)
* src/rosclientmodel/lbrosclient/ros_client.py   (FrequencyController, ROSBridgeClient.start)

Machine integers are modelled as Nat with explicit bounds; Python byte strings
as List Nat (each element < 256); Python str as List Char (unicode scalar
values); fallible operations return Option.
-/

namespace Rosbridge

/-! ## Little-endian 32-bit packing (Python struct.pack of an unsigned 32-bit int) -/

/-- The four little-endian bytes of a 32-bit unsigned integer, as laid out by
Python struct.pack for format code I or the explicitly little-endian form.
(The target platforms of this code are little-endian, so native byte order
coincides with little-endian.) -/
def le32 (n : Nat) : List Nat :=
  [n % 256, n / 256 % 256, n / 65536 % 256, n / 16777216 % 256]

/-- Python struct.pack of an unsigned 32-bit integer raises struct.error when
the value does not fit in 32 bits; modelled as none. -/
def pack_le32 (n : Nat) : Option (List Nat) :=
  if n < 4294967296 then some (le32 n) else none

/-- Little-endian decoding of a 4-byte list (0 on wrong shape). -/
def de32 : List Nat → Nat
  | [b0, b1, b2, b3] => b0 + b1 * 256 + b2 * 65536 + b3 * 16777216
  | _ => 0

theorem le32_length (n : Nat) : (le32 n).length = 4 := rfl

theorem de32_le32 (n : Nat) (h : n < 4294967296) : de32 (le32 n) = n := by
  simp only [le32, de32]
  omega

/-! ## UTF-8 codec

Model of Python str.encode with the utf-8 codec (the configured encoding;
param_manager.py defaults encoding to utf-8) and of bytes.decode, the strict
utf-8 decoder: it rejects truncated sequences, stray continuation bytes,
overlong encodings, surrogates and code points above 0x10FFFF. -/

/-- UTF-8 encoding of a single unicode scalar value. -/
def utf8EncodeChar (c : Char) : List Nat :=
  let n := c.toNat
  if n < 128 then [n]
  else if n < 2048 then [192 + n / 64, 128 + n % 64]
  else if n < 65536 then [224 + n / 4096, 128 + n / 64 % 64, 128 + n % 64]
  else [240 + n / 262144, 128 + n / 4096 % 64, 128 + n / 64 % 64, 128 + n % 64]

/-- UTF-8 encoding of a Python str (sequence of unicode scalar values). -/
def utf8Encode (s : List Char) : List Nat :=
  (s.map utf8EncodeChar).flatten

/-- Build a Char from a code point, provided it is a unicode scalar value. -/
def mkChar (n : Nat) : Option Char :=
  if h : n.isValidChar then some (Char.ofNatAux n h) else none

/-- Is this byte a UTF-8 continuation byte? -/
def utf8Cont (b : Nat) : Bool := 128 ≤ b && b < 192

/-- Decode one UTF-8 sequence off the front of a byte list (strict: rejects
truncated sequences, stray continuation bytes, overlong forms, surrogates and
code points above 0x10FFFF, like Python's utf-8 codec). -/
def utf8DecodeChar : List Nat → Option (Char × List Nat)
  | [] => none
  | b :: rest =>
    if b < 128 then
      (mkChar b).map (fun c => (c, rest))
    else if b < 192 then none
    else if b < 224 then
      match rest with
      | b1 :: rest1 =>
        if utf8Cont b1 then
          let n := (b - 192) * 64 + (b1 - 128)
          if 128 ≤ n then (mkChar n).map (fun c => (c, rest1)) else none
        else none
      | [] => none
    else if b < 240 then
      match rest with
      | b1 :: b2 :: rest2 =>
        if utf8Cont b1 && utf8Cont b2 then
          let n := (b - 224) * 4096 + (b1 - 128) * 64 + (b2 - 128)
          if 2048 ≤ n then (mkChar n).map (fun c => (c, rest2)) else none
        else none
      | _ => none
    else if b < 248 then
      match rest with
      | b1 :: b2 :: b3 :: rest3 =>
        if utf8Cont b1 && utf8Cont b2 && utf8Cont b3 then
          let n := (b - 240) * 262144 + (b1 - 128) * 4096 + (b2 - 128) * 64 + (b3 - 128)
          if 65536 ≤ n then (mkChar n).map (fun c => (c, rest3)) else none
        else none
      | _ => none
    else none

/-- Decoding loop; the fuel is an upper bound on the number of characters,
and the input length always suffices because every successful
utf8DecodeChar step consumes at least one byte. -/
def utf8DecodeAux : Nat → List Nat → Option (List Char)
  | _, [] => some []
  | 0, _ :: _ => none
  | Nat.succ fuel, bs =>
    match utf8DecodeChar bs with
    | some (c, rest) => (utf8DecodeAux fuel rest).map (fun cs => c :: cs)
    | none => none

/-- Strict UTF-8 decoder (Python bytes.decode with the utf-8 codec; raises
UnicodeDecodeError on invalid input, modelled as none). -/
def utf8Decode (bs : List Nat) : Option (List Char) := utf8DecodeAux bs.length bs

theorem mkChar_toNat (c : Char) : mkChar c.toNat = some c := by
  have hv : c.toNat.isValidChar := c.valid
  simp only [mkChar, dif_pos hv]
  congr 1

theorem utf8EncodeChar_pos (c : Char) : 0 < (utf8EncodeChar c).length := by
  simp only [utf8EncodeChar]
  split
  · simp
  split
  · simp
  split
  · simp
  simp

theorem utf8Encode_length_ge (s : List Char) : s.length ≤ (utf8Encode s).length := by
  induction s with
  | nil => simp [utf8Encode]
  | cons c cs ih =>
      have h : utf8Encode (c :: cs) = utf8EncodeChar c ++ utf8Encode cs := by
        simp [utf8Encode]
      rw [h]
      have := utf8EncodeChar_pos c
      simp only [List.length_append, List.length_cons]
      omega

theorem utf8DecodeChar_encodeChar (c : Char) (rest : List Nat) :
    utf8DecodeChar (utf8EncodeChar c ++ rest) = some (c, rest) := by
  have hv : c.toNat.isValidChar := c.valid
  have hlt : c.toNat < 1114112 := by
    rcases hv with h | h
    · omega
    · omega
  by_cases h1 : c.toNat < 128
  · simp only [utf8EncodeChar, if_pos h1, List.cons_append, List.nil_append, utf8DecodeChar,
      if_pos h1, mkChar_toNat]
    rfl
  · by_cases h2 : c.toNat < 2048
    · have key : (192 + c.toNat / 64 - 192) * 64 + (128 + c.toNat % 64 - 128) = c.toNat := by
        omega
      simp only [utf8EncodeChar, if_neg h1, if_pos h2, List.cons_append, List.nil_append,
        utf8DecodeChar, utf8Cont]
      rw [if_neg (by omega), if_neg (by omega), if_pos (by omega)]
      simp only [decide_eq_true_eq, Bool.and_eq_true, decide_True]
      rw [if_pos (by omega)]
      rw [key, if_pos (by omega), mkChar_toNat]
      rfl
    · by_cases h3 : c.toNat < 65536
      · have key : (224 + c.toNat / 4096 - 224) * 4096 + (128 + c.toNat / 64 % 64 - 128) * 64
            + (128 + c.toNat % 64 - 128) = c.toNat := by
          omega
        simp only [utf8EncodeChar, if_neg h1, if_neg h2, if_pos h3, List.cons_append,
          List.nil_append, utf8DecodeChar, utf8Cont]
        rw [if_neg (by omega), if_neg (by omega), if_neg (by omega), if_pos (by omega)]
        simp only [decide_eq_true_eq, Bool.and_eq_true, decide_True]
        rw [if_pos (by constructor <;> omega)]
        rw [key, if_pos (by omega), mkChar_toNat]
        rfl
      · have key : (240 + c.toNat / 262144 - 240) * 262144
            + (128 + c.toNat / 4096 % 64 - 128) * 4096
            + (128 + c.toNat / 64 % 64 - 128) * 64 + (128 + c.toNat % 64 - 128) = c.toNat := by
          omega
        simp only [utf8EncodeChar, if_neg h1, if_neg h2, if_neg h3, List.cons_append,
          List.nil_append, utf8DecodeChar, utf8Cont]
        rw [if_neg (by omega), if_neg (by omega), if_neg (by omega), if_neg (by omega),
          if_pos (by omega)]
        simp only [decide_eq_true_eq, Bool.and_eq_true, decide_True]
        rw [if_pos (by refine ⟨⟨?_, ?_⟩, ?_⟩ <;> omega)]
        rw [key, if_pos (by omega), mkChar_toNat]
        rfl

theorem utf8DecodeAux_encode (s : List Char) (fuel : Nat) (h : s.length ≤ fuel) :
    utf8DecodeAux fuel (utf8Encode s) = some s := by
  induction s generalizing fuel with
  | nil => cases fuel <;> rfl
  | cons c cs ih =>
      cases fuel with
      | zero => simp at h
      | succ f =>
          have henc : utf8Encode (c :: cs) = utf8EncodeChar c ++ utf8Encode cs := by
            simp [utf8Encode]
          rcases hec : utf8EncodeChar c with _ | ⟨b, bt⟩
          · have := utf8EncodeChar_pos c
            rw [hec] at this
            simp at this
          · have hcons : utf8Encode (c :: cs) = b :: (bt ++ utf8Encode cs) := by
              rw [henc, hec]
              rfl
            rw [hcons]
            have hstep : utf8DecodeChar (b :: (bt ++ utf8Encode cs)) = some (c, utf8Encode cs) := by
              have := utf8DecodeChar_encodeChar c (utf8Encode cs)
              rw [hec] at this
              simpa using this
            have hred : utf8DecodeAux (f + 1) (b :: (bt ++ utf8Encode cs))
                = Option.map (fun cs => c :: cs) (utf8DecodeAux f (utf8Encode cs)) := by
              simp only [utf8DecodeAux, hstep]
            rw [hred, ih f (by simpa using h)]
            rfl

/-- Round trip of the UTF-8 codec: decoding an encoded str gives it back
(str.encode followed by bytes.decode is the identity). -/
theorem utf8Decode_utf8Encode (s : List Char) : utf8Decode (utf8Encode s) = some s := by
  have h := utf8Encode_length_ge s
  exact utf8DecodeAux_encode s (utf8Encode s).length h

/-! ## Publish frame builder (src/rosclient/zmqclient.py, create_ros_message) -/

/-- create_ros_message: builds the 3-frame publish message
[topic frame, data-length frame, message-data frame].  struct.pack of an
unsigned 32-bit integer raises on overflow; the function catches every
exception and returns None (modelled as none).  The data-length frame is
packed with native byte order, which is little-endian on the platforms this
code targets; the inner content-length prefix is explicitly little-endian. -/
def create_ros_message (topic_name content : List Char) : Option (List (List Nat)) :=
  let topic_frame := utf8Encode topic_name
  let content_bytes := utf8Encode content
  match pack_le32 content_bytes.length with
  | none => none
  | some lenbytes =>
    let message_data := lenbytes ++ content_bytes
    match pack_le32 message_data.length with
    | none => none
    | some data_length_frame => some [topic_frame, data_length_frame, message_data]

/-- C1: for every topic name T and content C (whose encoding fits the 32-bit
length fields), create_ros_message yields exactly three byte-strings: frame 1
is the UTF-8 encoding of T; frame 2 is 4 bytes, little-endian, decoding to
len(frame 3); frame 3 is a 4-byte little-endian encoding of the UTF-8 byte
length of C followed by those UTF-8 bytes. -/
theorem create_ros_message_wire_format (T C : List Char)
    (h : (utf8Encode C).length + 4 < 4294967296) :
    create_ros_message T C =
      some [utf8Encode T,
            le32 (4 + (utf8Encode C).length),
            le32 (utf8Encode C).length ++ utf8Encode C] ∧
    (le32 (4 + (utf8Encode C).length)).length = 4 ∧
    de32 (le32 (4 + (utf8Encode C).length))
      = (le32 (utf8Encode C).length ++ utf8Encode C).length ∧
    (le32 (utf8Encode C).length).length = 4 ∧
    de32 (le32 (utf8Encode C).length) = (utf8Encode C).length := by
  have hc : (utf8Encode C).length < 4294967296 := by omega
  have hlen : (le32 (utf8Encode C).length ++ utf8Encode C).length
      = 4 + (utf8Encode C).length := by
    simp only [List.length_append, le32_length]
  refine ⟨?_, rfl, ?_, rfl, de32_le32 _ hc⟩
  · simp only [create_ros_message, pack_le32, if_pos hc]
    rw [hlen, if_pos (by omega)]
  · rw [hlen]
    exact de32_le32 _ (by omega)

/-- Witness for C1 at topic "/lb" and content "zmq" (the UTF-8 bytes are the
ASCII codes). -/
theorem create_ros_message_wire_format_witness :
    create_ros_message [Char.ofNat 47, Char.ofNat 108, Char.ofNat 98]
        [Char.ofNat 122, Char.ofNat 109, Char.ofNat 113]
      = some [[47, 108, 98], [7, 0, 0, 0], [3, 0, 0, 0, 122, 109, 113]] := by
  have h := create_ros_message_wire_format
    [Char.ofNat 47, Char.ofNat 108, Char.ofNat 98]
    [Char.ofNat 122, Char.ofNat 109, Char.ofNat 113] (by decide)
  rw [h.1]
  decide

/-! ## Frequency controller (ros_client.py, FrequencyController) -/

/-- FrequencyController state (ros_client.py lines 20-63).  Python time
values are modelled as exact rationals; only order comparisons and the
constant 1/target_hz are involved. -/
structure FrequencyController where
  target_hz : ℚ
  interval : ℚ
  last_time : ℚ
deriving DecidableEq

/-- The constructor: interval = 1/target_hz if target_hz > 0 else 0,
last_time = 0. -/
def FrequencyController.mk0 (target_hz : ℚ) : FrequencyController :=
  { target_hz := target_hz
    interval := if target_hz > 0 then 1 / target_hz else 0
    last_time := 0 }

/-- should_process(now): returns the boolean result and the updated state. -/
def FrequencyController.should_process (fc : FrequencyController) (now : ℚ) :
    Bool × FrequencyController :=
  if fc.interval ≤ 0 then (true, fc)
  else if fc.interval ≤ now - fc.last_time then
    (true, { fc with last_time := now })
  else (false, fc)

/-- reset(): clears the timestamp. -/
def FrequencyController.reset (fc : FrequencyController) : FrequencyController :=
  { fc with last_time := 0 }

/-- set_frequency(hz): recomputes target and interval, then resets. -/
def FrequencyController.set_frequency (fc : FrequencyController) (hz : ℚ) :
    FrequencyController :=
  FrequencyController.reset
    { fc with target_hz := hz, interval := if hz > 0 then 1 / hz else 0 }

theorem mk0_interval (hz : ℚ) :
    (FrequencyController.mk0 hz).interval = if hz > 0 then 1 / hz else 0 := rfl

theorem set_frequency_interval (fc : FrequencyController) (hz : ℚ) :
    (fc.set_frequency hz).interval = if hz > 0 then 1 / hz else 0 := rfl

/-- C4: for every controller whose interval was computed from its target (as
the constructor and set_frequency do, see mk0_interval and
set_frequency_interval): if targetHz <= 0, should_process always
returns true; otherwise it returns true iff now - lastFireTimestamp >= 1/targetHz,
updating the timestamp exactly on true and leaving the state untouched on
false; and with targetHz = 2, two calls within 0.4s of each other return
(true, false) and a call after the interval has elapsed returns true again. -/
theorem FrequencyController.should_process_spec (hz : ℚ) (fc : FrequencyController)
    (hfc : fc.interval = if hz > 0 then 1 / hz else 0) (now : ℚ) :
    (hz ≤ 0 → fc.should_process now = (true, fc)) ∧
    (0 < hz →
      ((fc.should_process now).1 = true ↔ 1 / hz ≤ now - fc.last_time) ∧
      (1 / hz ≤ now - fc.last_time →
        fc.should_process now = (true, { fc with last_time := now })) ∧
      (¬ 1 / hz ≤ now - fc.last_time → fc.should_process now = (false, fc))) ∧
    (hz = 2 → fc.last_time = 0 →
      ∀ t1 t2 t3 : ℚ, 1 / 2 ≤ t1 → t1 ≤ t2 → t2 - t1 < 2 / 5 → t1 + 1 / 2 ≤ t3 →
        (fc.should_process t1).1 = true ∧
        (((fc.should_process t1).2).should_process t2).1 = false ∧
        (((((fc.should_process t1).2).should_process t2).2).should_process t3).1 = true) := by
  have heq : ∀ (g : FrequencyController) (t : ℚ), g.should_process t =
      if g.interval ≤ 0 then (true, g)
      else if g.interval ≤ t - g.last_time then (true, { g with last_time := t })
      else (false, g) := fun _ _ => rfl
  refine ⟨?_, ?_, ?_⟩
  · intro hle
    have hint : fc.interval = 0 := by
      rw [hfc, if_neg (by exact not_lt.mpr hle)]
    rw [heq, if_pos (le_of_eq hint)]
  · intro hpos
    have hint : fc.interval = 1 / hz := by rw [hfc, if_pos hpos]
    have hintpos : ¬ fc.interval ≤ 0 := by
      rw [hint]
      exact not_le.mpr (by exact one_div_pos.mpr hpos)
    by_cases hge : 1 / hz ≤ now - fc.last_time
    · have hstep : fc.should_process now = (true, { fc with last_time := now }) := by
        rw [heq, if_neg hintpos, if_pos (by rw [hint]; exact hge)]
      refine ⟨⟨fun _ => hge, fun _ => by rw [hstep]⟩, fun _ => hstep, fun hc => absurd hge hc⟩
    · have hstep : fc.should_process now = (false, fc) := by
        rw [heq, if_neg hintpos, if_neg (by rw [hint]; exact hge)]
      refine ⟨⟨fun ht => ?_, fun hc => absurd hc hge⟩, fun hc => absurd hc hge, fun _ => hstep⟩
      rw [hstep] at ht
      exact absurd ht (by simp)
  · intro h2 hl0 t1 t2 t3 ht1 ht12 ht2 ht3
    have hint : fc.interval = 1 / 2 := by
      rw [hfc, h2, if_pos (by norm_num)]
    have hintpos : ¬ fc.interval ≤ 0 := by
      rw [hint]
      norm_num
    have hstep1 : fc.should_process t1 = (true, { fc with last_time := t1 }) := by
      rw [heq, if_neg hintpos, if_pos (by rw [hint, hl0]; linarith)]
    have hpi : ({ fc with last_time := t1 } : FrequencyController).interval = fc.interval := rfl
    have hpl : ({ fc with last_time := t1 } : FrequencyController).last_time = t1 := rfl
    have hstep2 : ({ fc with last_time := t1 } : FrequencyController).should_process t2
        = (false, { fc with last_time := t1 }) := by
      rw [heq, hpi, hpl, if_neg hintpos, if_neg (by rw [hint]; intro hcon; linarith)]
    have hstep3 : ({ fc with last_time := t1 } : FrequencyController).should_process t3
        = (true, { fc with last_time := t3 }) := by
      rw [heq, hpi, hpl, if_neg hintpos, if_pos (by rw [hint]; linarith)]
    exact ⟨by rw [hstep1], by rw [hstep1, hstep2], by rw [hstep1, hstep2, hstep3]⟩

/-- Witness for C4: target 2 Hz, calls at times 1, 1.2 and 2 give
(true, false, true); hypotheses discharged at hz = 2. -/
theorem FrequencyController.should_process_spec_witness :
    ((FrequencyController.mk0 2).should_process 1).1 = true ∧
    ((((FrequencyController.mk0 2).should_process 1).2).should_process (6 / 5)).1 = false ∧
    (((((FrequencyController.mk0 2).should_process 1).2).should_process (6 / 5)).2.should_process
      2).1 = true := by
  have h := FrequencyController.should_process_spec 2 (FrequencyController.mk0 2)
    (by norm_num [FrequencyController.mk0]) 1
  exact h.2.2 rfl rfl 1 (6 / 5) 2 (by norm_num) (by norm_num) (by norm_num) (by norm_num)

/-! ## Payload model and the Python json codec

Model of the Python values that flow through the message codec (None, bool,
int, str, list, dict with string keys and insertion order, bytes) and of
json.dumps(data, ensure_ascii=False) / json.loads from the standard library,
as used by _serialize_message/_deserialize_message.  Floats are outside the
model. -/

inductive PyValue where
  | pynone
  | pybool (b : Bool)
  | pyint (n : Int)
  | pystr (s : List Char)
  | pylist (xs : List PyValue)
  | pydict (kvs : List (List Char × PyValue))
  | pybytes (bs : List Nat)

/-- Double quote. -/
def quB : Char := Char.ofNat 34
/-- Backslash. -/
def bsB : Char := Char.ofNat 92
/-- Opening square bracket. -/
def lbrk : Char := Char.ofNat 91
/-- Closing square bracket. -/
def rbrk : Char := Char.ofNat 93
/-- Opening curly brace. -/
def lbrc : Char := Char.ofNat 123
/-- Closing curly brace. -/
def rbrc : Char := Char.ofNat 125
/-- Comma. -/
def commaCh : Char := Char.ofNat 44
/-- Colon. -/
def colonCh : Char := Char.ofNat 58
/-- Space. -/
def spaceCh : Char := Char.ofNat 32
/-- Minus sign. -/
def minusCh : Char := Char.ofNat 45

/-- Lower-case hex digit character, as json.dumps uses in escapes. -/
def hexDigit (n : Nat) : Char :=
  Char.ofNat (if n < 10 then 48 + n else 87 + n)

/-- json.dumps string escaping with ensure_ascii=False: only the double
quote, the backslash and control characters below 0x20 are escaped; the
control characters 8, 9, 10, 12, 13 get their short forms, the rest become
a 6-character unicode escape. -/
def escapeChar (c : Char) : List Char :=
  if c = quB then [bsB, quB]
  else if c = bsB then [bsB, bsB]
  else if c.toNat < 32 then
    if c.toNat = 8 then [bsB, Char.ofNat 98]
    else if c.toNat = 9 then [bsB, Char.ofNat 116]
    else if c.toNat = 10 then [bsB, Char.ofNat 110]
    else if c.toNat = 12 then [bsB, Char.ofNat 102]
    else if c.toNat = 13 then [bsB, Char.ofNat 114]
    else [bsB, Char.ofNat 117, Char.ofNat 48, Char.ofNat 48,
          hexDigit (c.toNat / 16), hexDigit (c.toNat % 16)]
  else [c]

def escapeString (s : List Char) : List Char := (s.map escapeChar).flatten

/-- A json string literal: quote, escaped content, quote. -/
def quoteString (s : List Char) : List Char :=
  quB :: escapeString s ++ [quB]

/-- Decimal digit character. -/
def digitCh (d : Nat) : Char := Char.ofNat (48 + d)

/-- Canonical decimal digits of a natural number, most significant first. -/
def natToCharsAux : Nat → List Char → List Char
  | n, acc =>
    if h : n < 10 then digitCh n :: acc
    else natToCharsAux (n / 10) (digitCh (n % 10) :: acc)
termination_by n => n
decreasing_by exact Nat.div_lt_self (by omega) (by omega)

def natToChars (n : Nat) : List Char := natToCharsAux n []

/-- Python decimal rendering of an int (json.dumps uses it for int values). -/
def intToChars : Int → List Char
  | Int.ofNat n => natToChars n
  | Int.negSucc m => minusCh :: natToChars (m + 1)

/-- The characters of the null keyword. -/
def nullChars : List Char :=
  [Char.ofNat 110, Char.ofNat 117, Char.ofNat 108, Char.ofNat 108]

/-- The characters of the true keyword. -/
def trueChars : List Char :=
  [Char.ofNat 116, Char.ofNat 114, Char.ofNat 117, Char.ofNat 101]

/-- The characters of the false keyword. -/
def falseChars : List Char :=
  [Char.ofNat 102, Char.ofNat 97, Char.ofNat 108, Char.ofNat 115, Char.ofNat 101]

mutual

/-- json.dumps(data, ensure_ascii=False) with default separators; raises
TypeError on bytes (modelled as none), renders None/bool/int/str/list/dict
in the standard way. -/
def dumps : PyValue → Option (List Char)
  | .pynone => some nullChars
  | .pybool true => some trueChars
  | .pybool false => some falseChars
  | .pyint n => some (intToChars n)
  | .pystr s => some (quoteString s)
  | .pylist xs =>
    match dumpsList xs with
    | some body => some (lbrk :: body ++ [rbrk])
    | none => none
  | .pydict kvs =>
    match dumpsDict kvs with
    | some body => some (lbrc :: body ++ [rbrc])
    | none => none
  | .pybytes _ => none

/-- Comma-space separated rendering of list elements. -/
def dumpsList : List PyValue → Option (List Char)
  | [] => some []
  | [x] => dumps x
  | x :: y :: rest =>
    match dumps x, dumpsList (y :: rest) with
    | some dx, some dr => some (dx ++ commaCh :: spaceCh :: dr)
    | _, _ => none

/-- Comma-space separated rendering of dict entries, each as key, colon,
space, value. -/
def dumpsDict : List (List Char × PyValue) → Option (List Char)
  | [] => some []
  | [kv] =>
    match dumps kv.2 with
    | some dv => some (quoteString kv.1 ++ colonCh :: spaceCh :: dv)
    | none => none
  | kv :: kv2 :: rest =>
    match dumps kv.2, dumpsDict (kv2 :: rest) with
    | some dv, some dr =>
      some ((quoteString kv.1 ++ colonCh :: spaceCh :: dv) ++ commaCh :: spaceCh :: dr)
    | _, _ => none

end

/-! ### json.loads model: recursive-descent parser over the json grammar
(strict mode: unescaped control characters inside strings rejected; numbers
restricted to the integer part of the grammar, floats being outside the
model; a dict built by in-order insertion so that a duplicated key keeps its
first position and its last value, like a Python dict literal). -/

/-- json whitespace. -/
def isWs (c : Char) : Bool :=
  c.toNat = 32 || c.toNat = 9 || c.toNat = 10 || c.toNat = 13

def skipWs : List Char → List Char
  | [] => []
  | c :: rest => if isWs c then skipWs rest else c :: rest

def isDigit (c : Char) : Bool := 48 ≤ c.toNat && c.toNat ≤ 57

/-- Value of a hex digit character, none otherwise. -/
def hexVal (c : Char) : Option Nat :=
  if 48 ≤ c.toNat && c.toNat ≤ 57 then some (c.toNat - 48)
  else if 97 ≤ c.toNat && c.toNat ≤ 102 then some (c.toNat - 87)
  else if 65 ≤ c.toNat && c.toNat ≤ 70 then some (c.toNat - 55)
  else none

/-- Parse the 4 hex digits of a unicode escape. -/
def parseHex4 : List Char → Option (Char × List Char)
  | h1 :: h2 :: h3 :: h4 :: rest2 =>
    (hexVal h1).bind fun v1 =>
      (hexVal h2).bind fun v2 =>
        (hexVal h3).bind fun v3 =>
          (hexVal h4).bind fun v4 =>
            (mkChar (v1 * 4096 + v2 * 256 + v3 * 16 + v4)).map (fun ch => (ch, rest2))
  | _ => none

/-- Decode one escape sequence (the input starts just after the backslash);
returns the denoted character and the rest of the input. -/
def parseEscape : List Char → Option (Char × List Char)
  | [] => none
  | e :: rest1 =>
    if e = quB || e = bsB || e.toNat = 47 then some (e, rest1)
    else if e.toNat = 98 then some (Char.ofNat 8, rest1)
    else if e.toNat = 116 then some (Char.ofNat 9, rest1)
    else if e.toNat = 110 then some (Char.ofNat 10, rest1)
    else if e.toNat = 102 then some (Char.ofNat 12, rest1)
    else if e.toNat = 114 then some (Char.ofNat 13, rest1)
    else if e.toNat = 117 then parseHex4 rest1
    else none

/-- String-body scanning loop; one unit of fuel per produced character, so
the input length is always sufficient fuel. -/
def parseStrAux : Nat → List Char → Option (List Char × List Char)
  | _, [] => none
  | 0, _ :: _ => none
  | Nat.succ fuel, c :: rest =>
    if c = quB then some ([], rest)
    else if c = bsB then
      (parseEscape rest).bind fun e =>
        (parseStrAux fuel e.2).map (fun p => (e.1 :: p.1, p.2))
    else if c.toNat < 32 then none
    else (parseStrAux fuel rest).map (fun p => (c :: p.1, p.2))

/-- Parse a json string body after the opening quote; returns the decoded
content and the input after the closing quote (strict mode: raw control
characters rejected). -/
def parseStringBody (s : List Char) : Option (List Char × List Char) :=
  parseStrAux s.length s

/-- Greedily consume decimal digits, folding them onto the accumulator. -/
def parseDigits : List Char → Nat → Nat × List Char
  | [], acc => (acc, [])
  | c :: rest, acc =>
    if isDigit c then parseDigits rest (acc * 10 + (c.toNat - 48))
    else (acc, c :: rest)

/-- The integer production 0 or nonzero-digit digits* of the json number
grammar: a leading 0 is never followed by more digits. -/
def parseNat : List Char → Option (Nat × List Char)
  | [] => none
  | c :: rest =>
    if c.toNat = 48 then some (0, rest)
    else if isDigit c then some (parseDigits rest (c.toNat - 48))
    else none

/-- An optionally negated integer. -/
def parseNumber : List Char → Option (Int × List Char)
  | [] => none
  | c :: rest =>
    if c = minusCh then (parseNat rest).map (fun p => (-(p.1 : Int), p.2))
    else (parseNat (c :: rest)).map (fun p => ((p.1 : Int), p.2))

/-- Insert a parsed key/value pair the way a Python dict does: a duplicated
key keeps its original position and takes the new value. -/
def dictInsert (acc : List (List Char × PyValue)) (k : List Char) (v : PyValue) :
    List (List Char × PyValue) :=
  match acc with
  | [] => [(k, v)]
  | kv :: rest => if kv.1 = k then (k, v) :: rest else kv :: dictInsert rest k v

/-- Match an expected literal tail, returning the remaining input. -/
def stripLit : List Char → List Char → Option (List Char)
  | [], s => some s
  | a :: p1, b :: s1 => if a = b then stripLit p1 s1 else none
  | _ :: _, [] => none

/-- Skip whitespace, then require a colon, returning the input after it. -/
def expectColon (s : List Char) : Option (List Char) :=
  match skipWs s with
  | c :: r => if c = colonCh then some r else none
  | [] => none

/-- Parse a quoted key: require a quote and parse the string body. -/
def parseKey (s : List Char) : Option (List Char × List Char) :=
  match s with
  | c :: r => if c = quB then parseStringBody r else none
  | [] => none

mutual

/-- Parse one json value (fuel-bounded recursion; every recursive call
strictly decreases the fuel or stays at equal fuel for finitely many steps,
and the generous fuel chosen by loads makes the bound unreachable on any
input it is asked to parse). -/
def parseValue : Nat → List Char → Option (PyValue × List Char)
  | 0, _ => none
  | Nat.succ fuel, s => parseValueTok fuel (skipWs s)
termination_by fuel _ => (fuel, 0)

/-- Dispatch on the first non-whitespace character of a value. -/
def parseValueTok : Nat → List Char → Option (PyValue × List Char)
  | _, [] => none
  | fuel, c :: rest =>
    if c = quB then (parseStringBody rest).map (fun p => (.pystr p.1, p.2))
    else if c = lbrk then parseListBody fuel rest
    else if c = lbrc then parseDictBody fuel rest
    else if c.toNat = 110 then
      (stripLit [Char.ofNat 117, Char.ofNat 108, Char.ofNat 108] rest).map
        (fun r => (.pynone, r))
    else if c.toNat = 116 then
      (stripLit [Char.ofNat 114, Char.ofNat 117, Char.ofNat 101] rest).map
        (fun r => (.pybool true, r))
    else if c.toNat = 102 then
      (stripLit [Char.ofNat 97, Char.ofNat 108, Char.ofNat 115, Char.ofNat 101] rest).map
        (fun r => (.pybool false, r))
    else if c = minusCh || isDigit c then
      (parseNumber (c :: rest)).map (fun p => (.pyint p.1, p.2))
    else none
termination_by fuel _ => (fuel, 1)

/-- Parse the inside of a json array after the opening bracket. -/
def parseListBody : Nat → List Char → Option (PyValue × List Char)
  | 0, _ => none
  | Nat.succ fuel, s => parseListBodyTok fuel (skipWs s)
termination_by fuel _ => (fuel, 0)

/-- Empty array or first element. -/
def parseListBodyTok : Nat → List Char → Option (PyValue × List Char)
  | _, [] => none
  | fuel, c :: rest =>
    if c = rbrk then some (.pylist [], rest)
    else (parseValue fuel (c :: rest)).bind fun p => parseListRest fuel [p.1] p.2
termination_by fuel _ => (fuel, 1)

/-- Parse comma-value repetitions until the closing bracket. -/
def parseListRest : Nat → List PyValue → List Char → Option (PyValue × List Char)
  | 0, _, _ => none
  | Nat.succ fuel, acc, s => parseListRestTok fuel acc (skipWs s)
termination_by fuel _ _ => (fuel, 0)

/-- Closing bracket or comma and a further element. -/
def parseListRestTok : Nat → List PyValue → List Char → Option (PyValue × List Char)
  | _, _, [] => none
  | fuel, acc, c :: rest =>
    if c = rbrk then some (.pylist acc, rest)
    else if c = commaCh then
      (parseValue fuel rest).bind fun p => parseListRest fuel (acc ++ [p.1]) p.2
    else none
termination_by fuel _ _ => (fuel, 1)

/-- Parse the inside of a json object after the opening brace. -/
def parseDictBody : Nat → List Char → Option (PyValue × List Char)
  | 0, _ => none
  | Nat.succ fuel, s => parseDictBodyTok fuel (skipWs s)
termination_by fuel _ => (fuel, 0)

/-- Empty object or first entry. -/
def parseDictBodyTok : Nat → List Char → Option (PyValue × List Char)
  | _, [] => none
  | fuel, c :: rest =>
    if c = rbrc then some (.pydict [], rest)
    else if c = quB then
      (parseStringBody rest).bind fun k =>
        (expectColon k.2).bind fun r2 =>
          (parseValue fuel r2).bind fun p => parseDictRest fuel [(k.1, p.1)] p.2
    else none
termination_by fuel _ => (fuel, 1)

/-- Parse comma-key-colon-value repetitions until the closing brace; entries
are inserted the way a Python dict literal builds up. -/
def parseDictRest : Nat → List (List Char × PyValue) → List Char →
    Option (PyValue × List Char)
  | 0, _, _ => none
  | Nat.succ fuel, acc, s => parseDictRestTok fuel acc (skipWs s)
termination_by fuel _ _ => (fuel, 0)

/-- Closing brace or comma and a further entry. -/
def parseDictRestTok : Nat → List (List Char × PyValue) → List Char →
    Option (PyValue × List Char)
  | _, _, [] => none
  | fuel, acc, c :: rest =>
    if c = rbrc then some (.pydict acc, rest)
    else if c = commaCh then
      (parseKey (skipWs rest)).bind fun k =>
        (expectColon k.2).bind fun r2 =>
          (parseValue fuel r2).bind fun p => parseDictRest fuel (dictInsert acc k.1 p.1) p.2
    else none
termination_by fuel _ _ => (fuel, 1)

end

/-- json.loads: parse one value, then require only whitespace to remain
(otherwise the Extra data error, modelled as none). -/
def loads (s : List Char) : Option PyValue :=
  match parseValue (2 * s.length + 2) s with
  | some (v, rest) =>
    match skipWs rest with
    | [] => some v
    | _ :: _ => none
  | none => none

/-! ### Supporting lemmas for the json round trip -/

theorem toNat_ofNat_small (k : Nat) (h : k < 55296) : (Char.ofNat k).toNat = k := by
  have hv : k.isValidChar := Or.inl h
  simp [Char.ofNat, hv, Char.ofNatAux, Char.toNat, UInt32.toNat, BitVec.toNat_ofNatLt]

theorem char_eq_ofNat (c : Char) (k : Nat) (hk : k < 55296) (h : c.toNat = k) :
    c = Char.ofNat k := by
  apply Char.ext
  apply UInt32.ext
  show c.toNat = (Char.ofNat k).toNat
  rw [toNat_ofNat_small k hk]
  exact h

theorem char_ne_of_toNat_ne (c d : Char) (h : c.toNat ≠ d.toNat) : c ≠ d := by
  intro he
  exact h (by rw [he])

theorem digitCh_toNat (d : Nat) (h : d < 10) : (digitCh d).toNat = 48 + d := by
  rw [digitCh, toNat_ofNat_small]
  omega

theorem isDigit_digitCh (d : Nat) (h : d < 10) : isDigit (digitCh d) = true := by
  simp only [isDigit, digitCh_toNat d h]
  simp only [Bool.and_eq_true, decide_eq_true_eq]
  omega

/-- The input does not begin with a decimal digit (so a greedy number parse
just before it stops exactly there). -/
def nonDigitStart : List Char → Bool
  | [] => true
  | c :: _ => !(isDigit c)

theorem natToCharsAux_append (n : Nat) : ∀ acc : List Char,
    natToCharsAux n acc = natToCharsAux n [] ++ acc := by
  induction n using Nat.strong_induction_on with
  | _ n ih =>
    intro acc
    by_cases h : n < 10
    · rw [natToCharsAux, dif_pos h, natToCharsAux, dif_pos h]
      rfl
    · have hd : n / 10 < n := Nat.div_lt_self (by omega) (by omega)
      rw [natToCharsAux, dif_neg h, ih (n / 10) hd]
      conv_rhs => rw [natToCharsAux, dif_neg h, ih (n / 10) hd]
      simp

theorem natToChars_head (n : Nat) :
    ∃ d cs, natToChars n = digitCh d :: cs ∧ d < 10 ∧ (1 ≤ n → 1 ≤ d) := by
  induction n using Nat.strong_induction_on with
  | _ n ih =>
    by_cases h : n < 10
    · exact ⟨n, [], by rw [natToChars, natToCharsAux, dif_pos h], h, fun h1 => h1⟩
    · have hd : n / 10 < n := Nat.div_lt_self (by omega) (by omega)
      obtain ⟨d, cs, hrep, hd10, hpos⟩ := ih (n / 10) hd
      refine ⟨d, cs ++ [digitCh (n % 10)], ?_, hd10, fun _ => hpos (by omega)⟩
      rw [natToChars, natToCharsAux, dif_neg h, natToCharsAux_append, ← natToChars, hrep]
      rfl

theorem parseDigits_nondigit (s : List Char) (acc : Nat) (h : nonDigitStart s = true) :
    parseDigits s acc = (acc, s) := by
  cases s with
  | nil => rfl
  | cons c rest =>
      simp only [nonDigitStart, Bool.not_eq_true'] at h
      simp [parseDigits, h]

theorem parseDigits_natToChars (m : Nat) : ∀ (rest : List Char) (acc : Nat),
    parseDigits (natToChars m ++ rest) acc
      = parseDigits rest (acc * 10 ^ (natToChars m).length + m) := by
  induction m using Nat.strong_induction_on with
  | _ m ih =>
    intro rest acc
    by_cases h : m < 10
    · have hm : natToChars m = [digitCh m] := by
        rw [natToChars, natToCharsAux, dif_pos h]
      rw [hm]
      simp only [List.cons_append, List.nil_append, List.length_cons, List.length_nil]
      rw [parseDigits]
      simp only [isDigit_digitCh m h, if_pos]
      congr 1
      rw [digitCh_toNat m h, pow_one]
      omega
    · have hd : m / 10 < m := Nat.div_lt_self (by omega) (by omega)
      have hm : natToChars m = natToChars (m / 10) ++ [digitCh (m % 10)] := by
        rw [natToChars, natToCharsAux, dif_neg h, natToCharsAux_append]
        rfl
      rw [hm, List.append_assoc, ih (m / 10) hd]
      simp only [List.cons_append, List.nil_append]
      rw [parseDigits]
      simp only [isDigit_digitCh (m % 10) (by omega), if_pos]
      congr 1
      rw [digitCh_toNat (m % 10) (by omega)]
      simp only [List.length_append, List.length_cons, List.length_nil, pow_succ, pow_add]
      have h48 : 48 + m % 10 - 48 = m % 10 := by omega
      rw [h48]
      have key : m / 10 * 10 + m % 10 = m := by omega
      calc (acc * 10 ^ (natToChars (m / 10)).length + m / 10) * 10 + m % 10
          = acc * (10 ^ (natToChars (m / 10)).length * 10) + (m / 10 * 10 + m % 10) := by ring
        _ = acc * (10 ^ (natToChars (m / 10)).length * 10) + m := by rw [key]

theorem parseNat_natToChars (n : Nat) (rest : List Char) (h : nonDigitStart rest = true) :
    parseNat (natToChars n ++ rest) = some (n, rest) := by
  by_cases h0 : n = 0
  · subst h0
    have hm : natToChars 0 = [digitCh 0] := by
      rw [natToChars, natToCharsAux, dif_pos (by omega)]
    rw [hm]
    simp only [List.cons_append, List.nil_append, parseNat]
    rw [if_pos (by rw [digitCh_toNat 0 (by omega)])]
  · obtain ⟨d, cs, hrep, hd10, hpos⟩ := natToChars_head n
    have hd1 : 1 ≤ d := hpos (by omega)
    have hsplit : parseDigits (natToChars n ++ rest) 0 = (n, rest) := by
      rw [parseDigits_natToChars n rest 0]
      simp only [Nat.zero_mul, Nat.zero_add]
      exact parseDigits_nondigit rest n h
    rw [hrep] at hsplit ⊢
    simp only [List.cons_append] at hsplit ⊢
    rw [parseDigits] at hsplit
    simp only [isDigit_digitCh d hd10, if_pos] at hsplit
    rw [parseNat]
    rw [if_neg (by rw [digitCh_toNat d hd10]; omega), if_pos (isDigit_digitCh d hd10)]
    rw [digitCh_toNat d hd10] at hsplit ⊢
    have hz : 0 * 10 + (48 + d - 48) = 48 + d - 48 := by omega
    rw [hz] at hsplit
    rw [hsplit]

theorem natToChars_head_not_minus (n : Nat) :
    ∃ c cs, natToChars n = c :: cs ∧ isDigit c = true ∧ c ≠ minusCh := by
  obtain ⟨d, cs, hrep, hd10, _⟩ := natToChars_head n
  refine ⟨digitCh d, cs, hrep, isDigit_digitCh d hd10, ?_⟩
  apply char_ne_of_toNat_ne
  rw [digitCh_toNat d hd10, minusCh, toNat_ofNat_small 45 (by omega)]
  omega

theorem parseNumber_intToChars (i : Int) (rest : List Char) (h : nonDigitStart rest = true) :
    parseNumber (intToChars i ++ rest) = some (i, rest) := by
  cases i with
  | ofNat n =>
      obtain ⟨c, cs, hrep, hdig, hne⟩ := natToChars_head_not_minus n
      simp only [intToChars]
      rw [hrep]
      simp only [List.cons_append, parseNumber]
      rw [if_neg hne, ← List.cons_append, ← hrep, parseNat_natToChars n rest h]
      rfl
  | negSucc m =>
      simp only [intToChars]
      rw [List.cons_append, parseNumber]
      rw [if_pos rfl, parseNat_natToChars (m + 1) rest h]
      simp [Int.negSucc_eq]

theorem hexVal_hexDigit (v : Nat) (h : v < 16) : hexVal (hexDigit v) = some v := by
  interval_cases v <;> decide


theorem parseEscape_qu (t : List Char) : parseEscape (quB :: t) = some (quB, t) := by
  rw [parseEscape, if_pos (by decide)]

theorem parseEscape_bs (t : List Char) : parseEscape (bsB :: t) = some (bsB, t) := by
  rw [parseEscape, if_pos (by decide)]

theorem parseEscape_b (t : List Char) :
    parseEscape (Char.ofNat 98 :: t) = some (Char.ofNat 8, t) := by
  rw [parseEscape, if_neg (by decide), if_pos (by decide)]

theorem parseEscape_t (t : List Char) :
    parseEscape (Char.ofNat 116 :: t) = some (Char.ofNat 9, t) := by
  rw [parseEscape, if_neg (by decide), if_neg (by decide), if_pos (by decide)]

theorem parseEscape_n (t : List Char) :
    parseEscape (Char.ofNat 110 :: t) = some (Char.ofNat 10, t) := by
  rw [parseEscape, if_neg (by decide), if_neg (by decide), if_neg (by decide),
    if_pos (by decide)]

theorem parseEscape_f (t : List Char) :
    parseEscape (Char.ofNat 102 :: t) = some (Char.ofNat 12, t) := by
  rw [parseEscape, if_neg (by decide), if_neg (by decide), if_neg (by decide),
    if_neg (by decide), if_pos (by decide)]

theorem parseEscape_r (t : List Char) :
    parseEscape (Char.ofNat 114 :: t) = some (Char.ofNat 13, t) := by
  rw [parseEscape, if_neg (by decide), if_neg (by decide), if_neg (by decide),
    if_neg (by decide), if_neg (by decide), if_pos (by decide)]

theorem parseEscape_u (hi lo : Nat) (hhi : hi < 16) (hlo : lo < 16) (t : List Char) :
    parseEscape (Char.ofNat 117 :: Char.ofNat 48 :: Char.ofNat 48 ::
        hexDigit hi :: hexDigit lo :: t)
      = (mkChar (hi * 16 + lo)).map (fun ch => (ch, t)) := by
  rw [parseEscape, if_neg (by decide), if_neg (by decide), if_neg (by decide),
    if_neg (by decide), if_neg (by decide), if_neg (by decide), if_pos (by decide)]
  rw [parseHex4]
  rw [hexVal_hexDigit hi hhi, hexVal_hexDigit lo hlo]
  have hv0 : hexVal (Char.ofNat 48) = some 0 := by decide
  rw [hv0]
  simp only [Option.some_bind]
  have hz : 0 * 4096 + 0 * 256 + hi * 16 + lo = hi * 16 + lo := by omega
  rw [hz]

theorem parseStrAux_escape (s : List Char) : ∀ (fuel : Nat) (rest : List Char),
    s.length + 1 ≤ fuel →
    parseStrAux fuel (escapeString s ++ quB :: rest) = some (s, rest) := by
  induction s with
  | nil =>
      intro fuel rest hf
      cases fuel with
      | zero => omega
      | succ f =>
          simp only [escapeString, List.map_nil, List.flatten_nil, List.nil_append]
          rw [parseStrAux, if_pos rfl]
  | cons c cs ih =>
      intro fuel rest hf
      cases fuel with
      | zero => omega
      | succ f =>
          have hf2 : cs.length + 1 ≤ f := by
            simp only [List.length_cons] at hf
            omega
          have hes : escapeString (c :: cs) ++ quB :: rest
              = escapeChar c ++ (escapeString cs ++ quB :: rest) := by
            simp [escapeString]
          rw [hes]
          by_cases hq : c = quB
          · have he : escapeChar c = [bsB, quB] := by rw [escapeChar, if_pos hq]
            rw [he]
            simp only [List.cons_append, List.nil_append]
            rw [parseStrAux, if_neg (by decide), if_pos (by decide), parseEscape_qu]
            simp only [Option.some_bind]
            rw [ih f rest hf2, hq]
            rfl
          · by_cases hb : c = bsB
            · have he : escapeChar c = [bsB, bsB] := by
                rw [escapeChar, if_neg hq, if_pos hb]
              rw [he]
              simp only [List.cons_append, List.nil_append]
              rw [parseStrAux, if_neg (by decide), if_pos (by decide), parseEscape_bs]
              simp only [Option.some_bind]
              rw [ih f rest hf2, hb]
              rfl
            · by_cases hlt : c.toNat < 32
              · by_cases h8 : c.toNat = 8
                · have he : escapeChar c = [bsB, Char.ofNat 98] := by
                    rw [escapeChar, if_neg hq, if_neg hb, if_pos hlt, if_pos h8]
                  rw [he]
                  simp only [List.cons_append, List.nil_append]
                  rw [parseStrAux, if_neg (by decide), if_pos (by decide), parseEscape_b]
                  simp only [Option.some_bind]
                  rw [ih f rest hf2, char_eq_ofNat c 8 (by omega) h8]
                  rfl
                · by_cases h9 : c.toNat = 9
                  · have he : escapeChar c = [bsB, Char.ofNat 116] := by
                      rw [escapeChar, if_neg hq, if_neg hb, if_pos hlt, if_neg h8, if_pos h9]
                    rw [he]
                    simp only [List.cons_append, List.nil_append]
                    rw [parseStrAux, if_neg (by decide), if_pos (by decide), parseEscape_t]
                    simp only [Option.some_bind]
                    rw [ih f rest hf2, char_eq_ofNat c 9 (by omega) h9]
                    rfl
                  · by_cases h10 : c.toNat = 10
                    · have he : escapeChar c = [bsB, Char.ofNat 110] := by
                        rw [escapeChar, if_neg hq, if_neg hb, if_pos hlt, if_neg h8, if_neg h9,
                          if_pos h10]
                      rw [he]
                      simp only [List.cons_append, List.nil_append]
                      rw [parseStrAux, if_neg (by decide), if_pos (by decide), parseEscape_n]
                      simp only [Option.some_bind]
                      rw [ih f rest hf2, char_eq_ofNat c 10 (by omega) h10]
                      rfl
                    · by_cases h12 : c.toNat = 12
                      · have he : escapeChar c = [bsB, Char.ofNat 102] := by
                          rw [escapeChar, if_neg hq, if_neg hb, if_pos hlt, if_neg h8, if_neg h9,
                            if_neg h10, if_pos h12]
                        rw [he]
                        simp only [List.cons_append, List.nil_append]
                        rw [parseStrAux, if_neg (by decide), if_pos (by decide), parseEscape_f]
                        simp only [Option.some_bind]
                        rw [ih f rest hf2, char_eq_ofNat c 12 (by omega) h12]
                        rfl
                      · by_cases h13 : c.toNat = 13
                        · have he : escapeChar c = [bsB, Char.ofNat 114] := by
                            rw [escapeChar, if_neg hq, if_neg hb, if_pos hlt, if_neg h8,
                              if_neg h9, if_neg h10, if_neg h12, if_pos h13]
                          rw [he]
                          simp only [List.cons_append, List.nil_append]
                          rw [parseStrAux, if_neg (by decide), if_pos (by decide), parseEscape_r]
                          simp only [Option.some_bind]
                          rw [ih f rest hf2, char_eq_ofNat c 13 (by omega) h13]
                          rfl
                        · have he : escapeChar c = [bsB, Char.ofNat 117, Char.ofNat 48,
                              Char.ofNat 48, hexDigit (c.toNat / 16), hexDigit (c.toNat % 16)] := by
                            rw [escapeChar, if_neg hq, if_neg hb, if_pos hlt, if_neg h8,
                              if_neg h9, if_neg h10, if_neg h12, if_neg h13]
                          rw [he]
                          simp only [List.cons_append, List.nil_append]
                          rw [parseStrAux, if_neg (by decide), if_pos (by decide),
                            parseEscape_u (c.toNat / 16) (c.toNat % 16) (by omega) (by omega)]
                          have hcode : c.toNat / 16 * 16 + c.toNat % 16 = c.toNat := by omega
                          rw [hcode, mkChar_toNat]
                          simp only [Option.map_some', Option.some_bind]
                          rw [ih f rest hf2]
                          rfl
              · have he : escapeChar c = [c] := by
                  rw [escapeChar, if_neg hq, if_neg hb, if_neg hlt]
                rw [he]
                simp only [List.cons_append, List.nil_append]
                rw [parseStrAux, if_neg hq, if_neg hb, if_neg hlt]
                rw [ih f rest hf2]
                rfl

theorem escapeChar_pos (c : Char) : 0 < (escapeChar c).length := by
  rw [escapeChar]
  split
  · simp
  · split
    · simp
    · split
      · split
        · simp
        · split
          · simp
          · split
            · simp
            · split
              · simp
              · split
                · simp
                · simp
      · simp

theorem escapeString_length_ge (s : List Char) : s.length ≤ (escapeString s).length := by
  induction s with
  | nil => simp [escapeString]
  | cons c cs ih =>
      have h : escapeString (c :: cs) = escapeChar c ++ escapeString cs := by
        simp [escapeString]
      rw [h]
      have := escapeChar_pos c
      simp only [List.length_append, List.length_cons]
      omega

/-- Round trip of the json string literal codec: the string-body parser
inverts escaping. -/
theorem parseStringBody_escape (s : List Char) (rest : List Char) :
    parseStringBody (escapeString s ++ quB :: rest) = some (s, rest) := by
  rw [parseStringBody]
  apply parseStrAux_escape
  have := escapeString_length_ge s
  simp only [List.length_append, List.length_cons]
  omega

/-! ### Payload validity and size accounting for the round trip -/

/-- A payload json.dumps can serialize and a Python dict can hold: no bytes
anywhere, and dict keys unique (a Python dict cannot carry duplicates). -/
inductive JsonOk : PyValue → Prop where
  | ok_none : JsonOk .pynone
  | ok_bool (b : Bool) : JsonOk (.pybool b)
  | ok_int (n : Int) : JsonOk (.pyint n)
  | ok_str (s : List Char) : JsonOk (.pystr s)
  | ok_list (xs : List PyValue) : (∀ x ∈ xs, JsonOk x) → JsonOk (.pylist xs)
  | ok_dict (kvs : List (List Char × PyValue)) : (∀ kv ∈ kvs, JsonOk kv.2) →
      (kvs.map Prod.fst).Nodup → JsonOk (.pydict kvs)

mutual

/-- Fuel requirement of the parser on the rendering of a value. -/
def jsize : PyValue → Nat
  | .pylist xs => 2 + jsizeL xs
  | .pydict kvs => 2 + jsizeD kvs
  | _ => 1

def jsizeL : List PyValue → Nat
  | [] => 0
  | x :: t => jsize x + 1 + jsizeL t

def jsizeD : List (List Char × PyValue) → Nat
  | [] => 0
  | kv :: t => jsize kv.2 + 1 + jsizeD t

end

theorem jsize_pos (v : PyValue) : 1 ≤ jsize v := by
  cases v <;> simp [jsize] <;> omega

/-- The comma-space separated continuation of a list rendering. -/
def dumpsTail : List PyValue → Option (List Char)
  | [] => some []
  | x :: t =>
    (dumps x).bind fun dx => (dumpsTail t).map fun dt => commaCh :: spaceCh :: dx ++ dt

/-- One rendered dict entry: key literal, colon, space, value. -/
def entryChars (k dv : List Char) : List Char := quoteString k ++ colonCh :: spaceCh :: dv

/-- The comma-space separated continuation of a dict rendering. -/
def dumpsDictTail : List (List Char × PyValue) → Option (List Char)
  | [] => some []
  | kv :: t =>
    (dumps kv.2).bind fun dv => (dumpsDictTail t).map fun dt =>
      commaCh :: spaceCh :: entryChars kv.1 dv ++ dt

theorem dumpsList_cons (x : PyValue) (t : List PyValue) :
    dumpsList (x :: t) = (dumps x).bind fun dx => (dumpsTail t).map fun dt => dx ++ dt := by
  induction t generalizing x with
  | nil =>
      cases hd : dumps x <;> simp [dumpsList, dumpsTail, hd]
  | cons y r ih =>
      rw [dumpsList, ih y, dumpsTail]
      cases hx : dumps x <;> cases hy : dumps y <;> cases hr : dumpsTail r <;>
        simp [hx, hy, hr]

theorem dumpsDict_cons (kv : List Char × PyValue) (t : List (List Char × PyValue)) :
    dumpsDict (kv :: t)
      = (dumps kv.2).bind fun dv => (dumpsDictTail t).map fun dt => entryChars kv.1 dv ++ dt := by
  induction t generalizing kv with
  | nil =>
      cases hd : dumps kv.2 <;> simp [dumpsDict, dumpsDictTail, entryChars, hd]
  | cons kv2 r ih =>
      rw [dumpsDict, ih kv2, dumpsDictTail]
      cases hx : dumps kv.2 <;> cases hy : dumps kv2.2 <;> cases hr : dumpsDictTail r <;>
        simp [hx, hy, hr, entryChars]

theorem dumps_list_inv (xs : List PyValue) (ds : List Char)
    (h : dumps (.pylist xs) = some ds) :
    ∃ body, dumpsList xs = some body ∧ ds = lbrk :: body ++ [rbrk] := by
  rw [dumps] at h
  split at h
  · refine ⟨_, by assumption, ?_⟩
    injection h with h
    rw [h]
  · exact absurd h (by simp)

theorem dumps_dict_inv (kvs : List (List Char × PyValue)) (ds : List Char)
    (h : dumps (.pydict kvs) = some ds) :
    ∃ body, dumpsDict kvs = some body ∧ ds = lbrc :: body ++ [rbrc] := by
  rw [dumps] at h
  split at h
  · refine ⟨_, by assumption, ?_⟩
    injection h with h
    rw [h]
  · exact absurd h (by simp)

theorem skipWs_not_ws (c : Char) (t : List Char) (h : isWs c = false) :
    skipWs (c :: t) = c :: t := by
  rw [skipWs, if_neg (by rw [h]; exact Bool.false_ne_true)]

theorem skipWs_ws (c : Char) (t : List Char) (h : isWs c = true) :
    skipWs (c :: t) = skipWs t := by
  rw [skipWs, if_pos h]

theorem parseValue_skip_space (fuel : Nat) (z : List Char) :
    parseValue fuel (spaceCh :: z) = parseValue fuel z := by
  cases fuel with
  | zero => rw [parseValue, parseValue]
  | succ f =>
      rw [parseValue, parseValue, skipWs_ws spaceCh z (by decide)]

theorem stripLit_self (p : List Char) : ∀ r : List Char, stripLit p (p ++ r) = some r := by
  induction p with
  | nil => intro r; rfl
  | cons a p1 ih =>
      intro r
      simp only [List.cons_append, stripLit, if_pos rfl]
      exact ih r

theorem dictInsert_append (acc : List (List Char × PyValue)) (k : List Char) (v : PyValue)
    (h : ∀ kv ∈ acc, kv.1 ≠ k) : dictInsert acc k v = acc ++ [(k, v)] := by
  induction acc with
  | nil => rfl
  | cons kv t ih =>
      rw [dictInsert]
      rw [if_neg (h kv (by simp))]
      rw [ih (fun kv2 hm => h kv2 (by simp [hm]))]
      rfl

/-- The head character of any dumps rendering: not whitespace, not a closing
bracket or brace, not a comma, and not a digit when the value is not an int
(only the facts needed downstream are recorded). -/
theorem dumps_head (v : PyValue) (ds : List Char) (h : dumps v = some ds) :
    ∃ c cs, ds = c :: cs ∧ isWs c = false ∧ c ≠ rbrk ∧ c ≠ rbrc ∧ c ≠ commaCh := by
  cases v with
  | pynone =>
      rw [dumps] at h
      injection h with h
      exact ⟨_, _, h.symm, by decide, by decide, by decide, by decide⟩
  | pybool b =>
      cases b <;> rw [dumps] at h <;> injection h with h <;>
        exact ⟨_, _, h.symm, by decide, by decide, by decide, by decide⟩
  | pyint n =>
      rw [dumps] at h
      injection h with h
      cases n with
      | ofNat m =>
          obtain ⟨d, cs, hrep, hd10, _⟩ := natToChars_head m
          simp only [intToChars] at h
          refine ⟨digitCh d, cs, by rw [← h, hrep], ?_, ?_, ?_, ?_⟩
          · simp only [isWs]
            rw [digitCh_toNat d hd10]
            simp only [Bool.or_eq_false_iff, decide_eq_false_iff_not]
            omega
          · have h93 : rbrk.toNat = 93 := by decide
            exact char_ne_of_toNat_ne (digitCh d) rbrk
              (by rw [digitCh_toNat d hd10, h93]; omega)
          · have h125 : rbrc.toNat = 125 := by decide
            exact char_ne_of_toNat_ne (digitCh d) rbrc
              (by rw [digitCh_toNat d hd10, h125]; omega)
          · have h44 : commaCh.toNat = 44 := by decide
            exact char_ne_of_toNat_ne (digitCh d) commaCh
              (by rw [digitCh_toNat d hd10, h44]; omega)
      | negSucc m =>
          simp only [intToChars] at h
          exact ⟨minusCh, _, h.symm, by decide, by decide, by decide, by decide⟩
  | pystr s =>
      rw [dumps] at h
      injection h with h
      refine ⟨quB, escapeString s ++ [quB], ?_, by decide, by decide, by decide, by decide⟩
      rw [← h, quoteString]
      rfl
  | pylist xs =>
      obtain ⟨body, _, hds⟩ := dumps_list_inv xs ds h
      exact ⟨lbrk, _, hds, by decide, by decide, by decide, by decide⟩
  | pydict kvs =>
      obtain ⟨body, _, hds⟩ := dumps_dict_inv kvs ds h
      exact ⟨lbrc, _, hds, by decide, by decide, by decide, by decide⟩
  | pybytes bs =>
      rw [dumps] at h
      exact absurd h (by simp)

theorem nonDigitStart_cons (c : Char) (t : List Char) :
    nonDigitStart (c :: t) = !(isDigit c) := rfl

theorem dumpsTail_nonDigit (xs : List PyValue) (tl : List Char) (h : dumpsTail xs = some tl)
    (rest : List Char) (hr : nonDigitStart rest = true) :
    nonDigitStart (tl ++ rest) = true := by
  cases xs with
  | nil =>
      rw [dumpsTail] at h
      injection h with h
      rw [← h, List.nil_append]
      exact hr
  | cons x t =>
      rw [dumpsTail] at h
      cases hx : dumps x with
      | none => rw [hx] at h; simp at h
      | some dx =>
          rw [hx] at h
          cases ht : dumpsTail t with
          | none => rw [ht] at h; simp at h
          | some dt =>
              rw [ht] at h
              simp only [Option.map_some', Option.some_bind] at h
              injection h with h
              rw [← h]
              simp only [List.cons_append, nonDigitStart_cons]
              decide

theorem dumpsDictTail_nonDigit (kvs : List (List Char × PyValue)) (tl : List Char)
    (h : dumpsDictTail kvs = some tl) (rest : List Char) (hr : nonDigitStart rest = true) :
    nonDigitStart (tl ++ rest) = true := by
  cases kvs with
  | nil =>
      rw [dumpsDictTail] at h
      injection h with h
      rw [← h, List.nil_append]
      exact hr
  | cons kv t =>
      rw [dumpsDictTail] at h
      cases hx : dumps kv.2 with
      | none => rw [hx] at h; simp at h
      | some dv =>
          rw [hx] at h
          cases ht : dumpsDictTail t with
          | none => rw [ht] at h; simp at h
          | some dt =>
              rw [ht] at h
              simp only [Option.map_some', Option.some_bind] at h
              injection h with h
              rw [← h]
              simp only [List.cons_append, nonDigitStart_cons]
              decide

theorem expectColon_colon (z : List Char) : expectColon (colonCh :: z) = some z := rfl

theorem parseKey_qu (z : List Char) : parseKey (quB :: z) = parseStringBody z := rfl

theorem jsonOk_list_mem (xs : List PyValue) (h : JsonOk (.pylist xs)) :
    ∀ x ∈ xs, JsonOk x := by
  cases h
  assumption

theorem jsonOk_dict_vals (kvs : List (List Char × PyValue)) (h : JsonOk (.pydict kvs)) :
    ∀ kv ∈ kvs, JsonOk kv.2 := by
  cases h
  assumption

theorem jsonOk_dict_keys (kvs : List (List Char × PyValue)) (h : JsonOk (.pydict kvs)) :
    (kvs.map Prod.fst).Nodup := by
  cases h
  assumption

theorem digitCh_ne (d k : Nat) (hd : d < 10) (hk : k < 55296) (hne : 48 + d ≠ k) :
    digitCh d ≠ Char.ofNat k := by
  apply char_ne_of_toNat_ne
  rw [digitCh_toNat d hd, toNat_ofNat_small k hk]
  exact hne

theorem digitCh_ne_quB (d : Nat) (hd : d < 10) : digitCh d ≠ quB :=
  digitCh_ne d 34 hd (by omega) (by omega)

theorem digitCh_ne_lbrk (d : Nat) (hd : d < 10) : digitCh d ≠ lbrk :=
  digitCh_ne d 91 hd (by omega) (by omega)

theorem digitCh_ne_lbrc (d : Nat) (hd : d < 10) : digitCh d ≠ lbrc :=
  digitCh_ne d 123 hd (by omega) (by omega)

/-- The json parser inverts json.dumps: simultaneous statement for values,
array bodies, array continuations, object bodies and object continuations,
by strong induction on the parser fuel. -/
theorem parse_dumps_all (fuel : Nat) :
    (∀ v ds rest, JsonOk v → dumps v = some ds → jsize v ≤ fuel →
      nonDigitStart rest = true → parseValue fuel (ds ++ rest) = some (v, rest)) ∧
    (∀ xs body rest, (∀ x ∈ xs, JsonOk x) → dumpsList xs = some body →
      jsizeL xs + 1 ≤ fuel →
      parseListBody fuel (body ++ rbrk :: rest) = some (.pylist xs, rest)) ∧
    (∀ xs acc tl rest, (∀ x ∈ xs, JsonOk x) → dumpsTail xs = some tl →
      jsizeL xs + 1 ≤ fuel →
      parseListRest fuel acc (tl ++ rbrk :: rest) = some (.pylist (acc ++ xs), rest)) ∧
    (∀ kvs body rest, (∀ kv ∈ kvs, JsonOk kv.2) → dumpsDict kvs = some body →
      jsizeD kvs + 1 ≤ fuel → (kvs.map Prod.fst).Nodup →
      parseDictBody fuel (body ++ rbrc :: rest) = some (.pydict kvs, rest)) ∧
    (∀ kvs acc tl rest, (∀ kv ∈ kvs, JsonOk kv.2) → dumpsDictTail kvs = some tl →
      jsizeD kvs + 1 ≤ fuel → ((acc ++ kvs).map Prod.fst).Nodup →
      parseDictRest fuel acc (tl ++ rbrc :: rest) = some (.pydict (acc ++ kvs), rest)) := by
  induction fuel using Nat.strong_induction_on with
  | _ fuel ih =>
  refine ⟨?_, ?_, ?_, ?_, ?_⟩
  · -- values
    intro v ds rest hok hd hsz hnd
    have h1 : 1 ≤ fuel := le_trans (jsize_pos v) hsz
    obtain ⟨f, rfl⟩ : ∃ f, fuel = f + 1 := ⟨fuel - 1, by omega⟩
    cases v with
    | pynone =>
        rw [dumps] at hd
        injection hd with hd
        rw [← hd]
        rw [show nullChars ++ rest = Char.ofNat 110 ::
          ([Char.ofNat 117, Char.ofNat 108, Char.ofNat 108] ++ rest) from rfl]
        rw [parseValue, skipWs_not_ws _ _ (by decide), parseValueTok,
          if_neg (by decide), if_neg (by decide), if_neg (by decide), if_pos (by decide),
          stripLit_self]
        rfl
    | pybool b =>
        cases b with
        | true =>
            rw [dumps] at hd
            injection hd with hd
            rw [← hd]
            rw [show trueChars ++ rest = Char.ofNat 116 ::
              ([Char.ofNat 114, Char.ofNat 117, Char.ofNat 101] ++ rest) from rfl]
            rw [parseValue, skipWs_not_ws _ _ (by decide), parseValueTok,
              if_neg (by decide), if_neg (by decide), if_neg (by decide), if_neg (by decide),
              if_pos (by decide), stripLit_self]
            rfl
        | false =>
            rw [dumps] at hd
            injection hd with hd
            rw [← hd]
            rw [show falseChars ++ rest = Char.ofNat 102 ::
              ([Char.ofNat 97, Char.ofNat 108, Char.ofNat 115, Char.ofNat 101] ++ rest) from rfl]
            rw [parseValue, skipWs_not_ws _ _ (by decide), parseValueTok,
              if_neg (by decide), if_neg (by decide), if_neg (by decide), if_neg (by decide),
              if_neg (by decide), if_pos (by decide), stripLit_self]
            rfl
    | pyint n =>
        rw [dumps] at hd
        injection hd with hd
        rw [← hd]
        cases n with
        | ofNat m =>
            obtain ⟨d, cs, hrep, hd10, _⟩ := natToChars_head m
            have h48 : (digitCh d).toNat = 48 + d := digitCh_toNat d hd10
            simp only [intToChars]
            rw [hrep, List.cons_append]
            rw [parseValue, skipWs_not_ws _ _ (by simp only [isWs, h48]; simp; omega),
              parseValueTok]
            rw [if_neg (digitCh_ne_quB d hd10), if_neg (digitCh_ne_lbrk d hd10),
              if_neg (digitCh_ne_lbrc d hd10),
              if_neg (by rw [h48]; omega), if_neg (by rw [h48]; omega),
              if_neg (by rw [h48]; omega),
              if_pos (by rw [Bool.or_eq_true, isDigit_digitCh d hd10]; simp)]
            rw [← List.cons_append, ← hrep]
            have hp : parseNumber (natToChars m ++ rest) = some ((m : Int), rest) := by
              have := parseNumber_intToChars (Int.ofNat m) rest hnd
              simpa [intToChars] using this
            rw [hp]
            rfl
        | negSucc m =>
            simp only [intToChars]
            rw [List.cons_append]
            rw [parseValue, skipWs_not_ws _ _ (by decide), parseValueTok,
              if_neg (by decide), if_neg (by decide), if_neg (by decide), if_neg (by decide),
              if_neg (by decide), if_neg (by decide), if_pos (by simp [minusCh])]
            rw [← List.cons_append]
            have hp := parseNumber_intToChars (Int.negSucc m) rest hnd
            simp only [intToChars] at hp
            rw [hp]
            rfl
    | pystr s =>
        rw [dumps] at hd
        injection hd with hd
        rw [← hd, quoteString]
        rw [show (quB :: escapeString s ++ [quB]) ++ rest
          = quB :: (escapeString s ++ quB :: rest) from by simp]
        rw [parseValue, skipWs_not_ws _ _ (by decide), parseValueTok, if_pos rfl,
          parseStringBody_escape]
        rfl
    | pylist xs =>
        obtain ⟨body, hb, hds⟩ := dumps_list_inv xs ds hd
        rw [hds]
        rw [show (lbrk :: body ++ [rbrk]) ++ rest = lbrk :: (body ++ rbrk :: rest) from by simp]
        rw [parseValue, skipWs_not_ws _ _ (by decide), parseValueTok,
          if_neg (by decide), if_pos rfl]
        rw [jsize] at hsz
        exact (ih f (by omega)).2.1 xs body rest (jsonOk_list_mem xs hok) hb (by omega)
    | pydict kvs =>
        obtain ⟨body, hb, hds⟩ := dumps_dict_inv kvs ds hd
        rw [hds]
        rw [show (lbrc :: body ++ [rbrc]) ++ rest = lbrc :: (body ++ rbrc :: rest) from by simp]
        rw [parseValue, skipWs_not_ws _ _ (by decide), parseValueTok,
          if_neg (by decide), if_neg (by decide), if_pos rfl]
        rw [jsize] at hsz
        exact (ih f (by omega)).2.2.2.1 kvs body rest (jsonOk_dict_vals kvs hok) hb (by omega)
          (jsonOk_dict_keys kvs hok)
    | pybytes bs =>
        rw [dumps] at hd
        exact absurd hd (by simp)
  · -- array bodies
    intro xs body rest hoks hb hsz
    obtain ⟨f, rfl⟩ : ∃ f, fuel = f + 1 := ⟨fuel - 1, by omega⟩
    cases xs with
    | nil =>
        rw [dumpsList] at hb
        injection hb with hb
        rw [← hb, List.nil_append, parseListBody, skipWs_not_ws _ _ (by decide),
          parseListBodyTok, if_pos rfl]
    | cons x t =>
        rw [dumpsList_cons] at hb
        cases hx : dumps x with
        | none => rw [hx] at hb; simp at hb
        | some dx =>
            rw [hx] at hb
            cases ht : dumpsTail t with
            | none => rw [ht] at hb; simp at hb
            | some tl =>
                rw [ht] at hb
                simp only [Option.map_some', Option.some_bind] at hb
                injection hb with hb
                obtain ⟨c, cs, hdx, hws, hnrbk, _, _⟩ := dumps_head x dx hx
                rw [← hb, hdx]
                rw [show ((c :: cs) ++ tl) ++ rbrk :: rest
                  = c :: (cs ++ (tl ++ rbrk :: rest)) from by simp]
                rw [parseListBody, skipWs_not_ws c _ hws, parseListBodyTok, if_neg hnrbk]
                rw [jsizeL] at hsz
                have hv := (ih f (by omega)).1 x dx (tl ++ rbrk :: rest) (hoks x (List.mem_cons_self x t)) hx
                  (by omega)
                  (dumpsTail_nonDigit t tl ht _ (by rw [nonDigitStart_cons]; decide))
                rw [show c :: (cs ++ (tl ++ rbrk :: rest)) = dx ++ (tl ++ rbrk :: rest) from by
                  rw [hdx]; simp]
                rw [hv]
                simp only [Option.some_bind]
                have hr := (ih f (by omega)).2.2.1 t [x] tl rest
                  (fun y hy => hoks y (List.mem_cons_of_mem _ hy)) ht (by omega)
                rw [hr]
                rfl
  · -- array continuations
    intro xs acc tl rest hoks ht hsz
    obtain ⟨f, rfl⟩ : ∃ f, fuel = f + 1 := ⟨fuel - 1, by omega⟩
    cases xs with
    | nil =>
        rw [dumpsTail] at ht
        injection ht with ht
        rw [← ht, List.nil_append, parseListRest, skipWs_not_ws _ _ (by decide),
          parseListRestTok, if_pos rfl, List.append_nil]
    | cons x t =>
        rw [dumpsTail] at ht
        cases hx : dumps x with
        | none => rw [hx] at ht; simp at ht
        | some dx =>
            rw [hx] at ht
            cases ht2 : dumpsTail t with
            | none => rw [ht2] at ht; simp at ht
            | some tl2 =>
                rw [ht2] at ht
                simp only [Option.map_some', Option.some_bind] at ht
                injection ht with ht
                rw [← ht]
                rw [show (commaCh :: spaceCh :: dx ++ tl2) ++ rbrk :: rest
                  = commaCh :: (spaceCh :: (dx ++ (tl2 ++ rbrk :: rest))) from by simp]
                rw [parseListRest, skipWs_not_ws _ _ (by decide), parseListRestTok,
                  if_neg (by decide), if_pos rfl, parseValue_skip_space]
                rw [jsizeL] at hsz
                have hv := (ih f (by omega)).1 x dx (tl2 ++ rbrk :: rest) (hoks x (List.mem_cons_self x t)) hx
                  (by omega)
                  (dumpsTail_nonDigit t tl2 ht2 _ (by rw [nonDigitStart_cons]; decide))
                rw [hv]
                simp only [Option.some_bind]
                have hr := (ih f (by omega)).2.2.1 t (acc ++ [x]) tl2 rest
                  (fun y hy => hoks y (List.mem_cons_of_mem _ hy)) ht2 (by omega)
                rw [hr]
                simp
  · -- object bodies
    intro kvs body rest hoks hb hsz hnd
    obtain ⟨f, rfl⟩ : ∃ f, fuel = f + 1 := ⟨fuel - 1, by omega⟩
    cases kvs with
    | nil =>
        rw [dumpsDict] at hb
        injection hb with hb
        rw [← hb, List.nil_append, parseDictBody, skipWs_not_ws _ _ (by decide),
          parseDictBodyTok, if_pos rfl]
    | cons kv t =>
        rw [dumpsDict_cons] at hb
        cases hx : dumps kv.2 with
        | none => rw [hx] at hb; simp at hb
        | some dv =>
            rw [hx] at hb
            cases ht : dumpsDictTail t with
            | none => rw [ht] at hb; simp at hb
            | some dt =>
                rw [ht] at hb
                simp only [Option.map_some', Option.some_bind] at hb
                injection hb with hb
                rw [← hb, entryChars, quoteString]
                rw [show ((quB :: escapeString kv.1 ++ [quB]) ++ colonCh :: spaceCh :: dv ++ dt)
                    ++ rbrc :: rest
                  = quB :: (escapeString kv.1 ++ quB ::
                      (colonCh :: (spaceCh :: (dv ++ (dt ++ rbrc :: rest))))) from by simp]
                rw [parseDictBody, skipWs_not_ws _ _ (by decide), parseDictBodyTok,
                  if_neg (by decide), if_pos rfl, parseStringBody_escape]
                simp only [Option.some_bind]
                rw [expectColon_colon]
                simp only [Option.some_bind]
                rw [parseValue_skip_space]
                rw [jsizeD] at hsz
                have hv := (ih f (by omega)).1 kv.2 dv (dt ++ rbrc :: rest) (hoks kv (List.mem_cons_self kv t))
                  hx (by omega)
                  (dumpsDictTail_nonDigit t dt ht _ (by rw [nonDigitStart_cons]; decide))
                rw [hv]
                simp only [Option.some_bind]
                have hr := (ih f (by omega)).2.2.2.2 t [(kv.1, kv.2)] dt rest
                  (fun y hy => hoks y (List.mem_cons_of_mem _ hy)) ht (by omega)
                  (by exact hnd)
                rw [hr]
                simp
  · -- object continuations
    intro kvs acc tl rest hoks ht hsz hnd
    obtain ⟨f, rfl⟩ : ∃ f, fuel = f + 1 := ⟨fuel - 1, by omega⟩
    cases kvs with
    | nil =>
        rw [dumpsDictTail] at ht
        injection ht with ht
        rw [← ht, List.nil_append, parseDictRest, skipWs_not_ws _ _ (by decide),
          parseDictRestTok, if_pos rfl, List.append_nil]
    | cons kv t =>
        rw [dumpsDictTail] at ht
        cases hx : dumps kv.2 with
        | none => rw [hx] at ht; simp at ht
        | some dv =>
            rw [hx] at ht
            cases ht2 : dumpsDictTail t with
            | none => rw [ht2] at ht; simp at ht
            | some dt =>
                rw [ht2] at ht
                simp only [Option.map_some', Option.some_bind] at ht
                injection ht with ht
                rw [← ht, entryChars, quoteString]
                rw [show (commaCh :: spaceCh ::
                      ((quB :: escapeString kv.1 ++ [quB]) ++ colonCh :: spaceCh :: dv) ++ dt)
                    ++ rbrc :: rest
                  = commaCh :: (spaceCh :: (quB :: (escapeString kv.1 ++ quB ::
                      (colonCh :: (spaceCh :: (dv ++ (dt ++ rbrc :: rest))))))) from by simp]
                rw [parseDictRest, skipWs_not_ws _ _ (by decide), parseDictRestTok,
                  if_neg (by decide), if_pos rfl]
                rw [skipWs_ws _ _ (by decide), skipWs_not_ws _ _ (by decide), parseKey_qu,
                  parseStringBody_escape]
                simp only [Option.some_bind]
                rw [expectColon_colon]
                simp only [Option.some_bind]
                rw [parseValue_skip_space]
                rw [jsizeD] at hsz
                have hv := (ih f (by omega)).1 kv.2 dv (dt ++ rbrc :: rest) (hoks kv (List.mem_cons_self kv t))
                  hx (by omega)
                  (dumpsDictTail_nonDigit t dt ht2 _ (by rw [nonDigitStart_cons]; decide))
                rw [hv]
                simp only [Option.some_bind]
                have hins : dictInsert acc kv.1 kv.2 = acc ++ [(kv.1, kv.2)] := by
                  apply dictInsert_append
                  intro kv2 hm
                  have hnd2 := hnd
                  rw [List.map_append, List.nodup_append] at hnd2
                  obtain ⟨_, _, hdis⟩ := hnd2
                  intro hcon
                  apply hdis (a := kv2.1) (List.mem_map_of_mem Prod.fst hm)
                  rw [hcon]
                  exact List.mem_map_of_mem Prod.fst (List.mem_cons_self kv t)
                rw [hins]
                have hr := (ih f (by omega)).2.2.2.2 t (acc ++ [(kv.1, kv.2)]) dt rest
                  (fun y hy => hoks y (List.mem_cons_of_mem _ hy)) ht2 (by omega)
                  (by
                    rw [List.append_assoc]
                    exact hnd)
                rw [hr]
                simp

theorem jsize_lt_list (x : PyValue) (xs : List PyValue) (hm : x ∈ xs) :
    jsize x < jsize (.pylist xs) := by
  have h : jsize x + 1 ≤ jsizeL xs := by
    induction xs with
    | nil => cases hm
    | cons y t ih =>
        rw [jsizeL]
        rcases List.mem_cons.mp hm with h | h
        · rw [h]
          omega
        · have := ih h
          omega
  rw [jsize]
  omega

theorem jsize_lt_dict (kv : List Char × PyValue) (kvs : List (List Char × PyValue))
    (hm : kv ∈ kvs) : jsize kv.2 < jsize (.pydict kvs) := by
  have h : jsize kv.2 + 1 ≤ jsizeD kvs := by
    induction kvs with
    | nil => cases hm
    | cons y t ih =>
        rw [jsizeD]
        rcases List.mem_cons.mp hm with h | h
        · rw [h]
          omega
        · have := ih h
          omega
  rw [jsize]
  omega

theorem jsizeL_le_tail (xs : List PyValue)
    (hx : ∀ x ∈ xs, ∀ dx, dumps x = some dx → jsize x ≤ 2 * dx.length) :
    ∀ tl, dumpsTail xs = some tl → jsizeL xs ≤ 2 * tl.length := by
  induction xs with
  | nil =>
      intro tl h
      rw [dumpsTail] at h
      injection h with h
      rw [← h]
      simp [jsizeL]
  | cons x t ih =>
      intro tl h
      rw [dumpsTail] at h
      cases hd : dumps x with
      | none => rw [hd] at h; simp at h
      | some dx =>
          rw [hd] at h
          cases ht : dumpsTail t with
          | none => rw [ht] at h; simp at h
          | some dt =>
              rw [ht] at h
              simp only [Option.map_some', Option.some_bind] at h
              injection h with h
              have h1 := hx x (List.mem_cons_self x t) dx hd
              have h2 := ih (fun y hy dy hdy => hx y (List.mem_cons_of_mem _ hy) dy hdy) dt ht
              rw [← h]
              simp only [jsizeL, List.length_cons, List.length_append]
              omega

theorem jsizeD_le_tail (kvs : List (List Char × PyValue))
    (hx : ∀ kv ∈ kvs, ∀ dv, dumps kv.2 = some dv → jsize kv.2 ≤ 2 * dv.length) :
    ∀ tl, dumpsDictTail kvs = some tl → jsizeD kvs ≤ 2 * tl.length := by
  induction kvs with
  | nil =>
      intro tl h
      rw [dumpsDictTail] at h
      injection h with h
      rw [← h]
      simp [jsizeD]
  | cons kv t ih =>
      intro tl h
      rw [dumpsDictTail] at h
      cases hd : dumps kv.2 with
      | none => rw [hd] at h; simp at h
      | some dv =>
          rw [hd] at h
          cases ht : dumpsDictTail t with
          | none => rw [ht] at h; simp at h
          | some dt =>
              rw [ht] at h
              simp only [Option.map_some', Option.some_bind] at h
              injection h with h
              have h1 := hx kv (List.mem_cons_self kv t) dv hd
              have h2 := ih (fun y hy dy hdy => hx y (List.mem_cons_of_mem _ hy) dy hdy) dt ht
              rw [← h]
              simp only [jsizeD, List.length_cons, List.length_append, entryChars, quoteString,
                List.length_cons]
              omega

theorem jsize_le_dumps_aux (n : Nat) : ∀ v, jsize v ≤ n →
    ∀ ds, dumps v = some ds → jsize v ≤ 2 * ds.length := by
  induction n using Nat.strong_induction_on with
  | _ n ih =>
  intro v hvn ds hd
  cases v with
  | pylist xs =>
      obtain ⟨body, hb, hds⟩ := dumps_list_inv xs ds hd
      have hx : ∀ x ∈ xs, ∀ dx, dumps x = some dx → jsize x ≤ 2 * dx.length := by
        intro x hm dx hdx
        have hlt : jsize x < n := lt_of_lt_of_le (jsize_lt_list x xs hm) hvn
        exact ih (jsize x) hlt x le_rfl dx hdx
      cases xs with
      | nil =>
          rw [dumpsList] at hb
          injection hb with hb
          rw [hds, ← hb]
          simp [jsize, jsizeL]
      | cons x t =>
          rw [dumpsList_cons] at hb
          cases hdx : dumps x with
          | none => rw [hdx] at hb; simp at hb
          | some dx =>
              rw [hdx] at hb
              cases ht : dumpsTail t with
              | none => rw [ht] at hb; simp at hb
              | some dt =>
                  rw [ht] at hb
                  simp only [Option.map_some', Option.some_bind] at hb
                  injection hb with hb
                  have h1 := hx x (List.mem_cons_self x t) dx hdx
                  have h2 := jsizeL_le_tail t
                    (fun y hy dy hdy => hx y (List.mem_cons_of_mem _ hy) dy hdy) dt ht
                  rw [hds, ← hb]
                  simp only [jsize, jsizeL, List.length_cons, List.length_append,
                    List.length_nil]
                  omega
  | pydict kvs =>
      obtain ⟨body, hb, hds⟩ := dumps_dict_inv kvs ds hd
      have hx : ∀ kv ∈ kvs, ∀ dv, dumps kv.2 = some dv → jsize kv.2 ≤ 2 * dv.length := by
        intro kv hm dv hdv
        have hlt : jsize kv.2 < n := lt_of_lt_of_le (jsize_lt_dict kv kvs hm) hvn
        exact ih (jsize kv.2) hlt kv.2 le_rfl dv hdv
      cases kvs with
      | nil =>
          rw [dumpsDict] at hb
          injection hb with hb
          rw [hds, ← hb]
          simp [jsize, jsizeD]
      | cons kv t =>
          rw [dumpsDict_cons] at hb
          cases hdx : dumps kv.2 with
          | none => rw [hdx] at hb; simp at hb
          | some dv =>
              rw [hdx] at hb
              cases ht : dumpsDictTail t with
              | none => rw [ht] at hb; simp at hb
              | some dt =>
                  rw [ht] at hb
                  simp only [Option.map_some', Option.some_bind] at hb
                  injection hb with hb
                  have h1 := hx kv (List.mem_cons_self kv t) dv hdx
                  have h2 := jsizeD_le_tail t
                    (fun y hy dy hdy => hx y (List.mem_cons_of_mem _ hy) dy hdy) dt ht
                  rw [hds, ← hb]
                  simp only [jsize, jsizeD, List.length_cons, List.length_append,
                    List.length_nil, entryChars, quoteString]
                  omega
  | pynone =>
      obtain ⟨c, cs, hds, _, _, _, _⟩ := dumps_head _ ds hd
      rw [hds]
      simp only [jsize, List.length_cons]
      omega
  | pybool b =>
      obtain ⟨c, cs, hds, _, _, _, _⟩ := dumps_head _ ds hd
      rw [hds]
      simp only [jsize, List.length_cons]
      omega
  | pyint m =>
      obtain ⟨c, cs, hds, _, _, _, _⟩ := dumps_head _ ds hd
      rw [hds]
      simp only [jsize, List.length_cons]
      omega
  | pystr s =>
      obtain ⟨c, cs, hds, _, _, _, _⟩ := dumps_head _ ds hd
      rw [hds]
      simp only [jsize, List.length_cons]
      omega
  | pybytes bs =>
      rw [dumps] at hd
      exact absurd hd (by simp)

theorem jsize_le_dumps (v : PyValue) (ds : List Char) (h : dumps v = some ds) :
    jsize v ≤ 2 * ds.length :=
  jsize_le_dumps_aux (jsize v) v le_rfl ds h

theorem dumpsTail_isSome (xs : List PyValue)
    (h : ∀ x ∈ xs, ∃ dx, dumps x = some dx) : ∃ tl, dumpsTail xs = some tl := by
  induction xs with
  | nil => exact ⟨[], rfl⟩
  | cons x t ih =>
      obtain ⟨dx, hdx⟩ := h x (List.mem_cons_self x t)
      obtain ⟨dt, hdt⟩ := ih (fun y hy => h y (List.mem_cons_of_mem _ hy))
      refine ⟨commaCh :: spaceCh :: dx ++ dt, ?_⟩
      rw [dumpsTail, hdx, hdt]
      rfl

theorem dumpsDictTail_isSome (kvs : List (List Char × PyValue))
    (h : ∀ kv ∈ kvs, ∃ dv, dumps kv.2 = some dv) : ∃ tl, dumpsDictTail kvs = some tl := by
  induction kvs with
  | nil => exact ⟨[], rfl⟩
  | cons kv t ih =>
      obtain ⟨dv, hdv⟩ := h kv (List.mem_cons_self kv t)
      obtain ⟨dt, hdt⟩ := ih (fun y hy => h y (List.mem_cons_of_mem _ hy))
      refine ⟨commaCh :: spaceCh :: entryChars kv.1 dv ++ dt, ?_⟩
      rw [dumpsDictTail, hdv, hdt]
      rfl

/-- Every serializable payload has a rendering: json.dumps succeeds on
bytes-free values. -/
theorem dumps_isSome (v : PyValue) (h : JsonOk v) : ∃ ds, dumps v = some ds := by
  induction h with
  | ok_none => exact ⟨_, rfl⟩
  | ok_bool b => cases b <;> exact ⟨_, rfl⟩
  | ok_int n => exact ⟨_, rfl⟩
  | ok_str s => exact ⟨_, rfl⟩
  | ok_list xs hxs ih =>
      cases xs with
      | nil =>
          refine ⟨[lbrk, rbrk], ?_⟩
          rw [dumps, dumpsList]
          rfl
      | cons x t =>
          obtain ⟨dx, hdx⟩ := ih x (List.mem_cons_self x t)
          obtain ⟨dt, hdt⟩ := dumpsTail_isSome t (fun y hy => ih y (List.mem_cons_of_mem _ hy))
          refine ⟨lbrk :: (dx ++ dt) ++ [rbrk], ?_⟩
          have hdl : dumpsList (x :: t) = some (dx ++ dt) := by
            rw [dumpsList_cons, hdx, hdt]
            rfl
          rw [dumps, hdl]
  | ok_dict kvs hkvs hnd ih =>
      cases kvs with
      | nil =>
          refine ⟨[lbrc, rbrc], ?_⟩
          rw [dumps, dumpsDict]
          rfl
      | cons kv t =>
          obtain ⟨dv, hdv⟩ := ih kv (List.mem_cons_self kv t)
          obtain ⟨dt, hdt⟩ := dumpsDictTail_isSome t
            (fun y hy => ih y (List.mem_cons_of_mem _ hy))
          refine ⟨lbrc :: (entryChars kv.1 dv ++ dt) ++ [rbrc], ?_⟩
          have hdl : dumpsDict (kv :: t) = some (entryChars kv.1 dv ++ dt) := by
            rw [dumpsDict_cons, hdv, hdt]
            rfl
          rw [dumps, hdl]

/-- json.loads inverts json.dumps on every serializable payload. -/
theorem loads_dumps (v : PyValue) (hok : JsonOk v) (ds : List Char)
    (h : dumps v = some ds) : loads ds = some v := by
  rw [loads]
  have hb := jsize_le_dumps v ds h
  have hp := (parse_dumps_all (2 * ds.length + 2)).1 v ds [] hok h (by omega) rfl
  rw [List.append_nil] at hp
  rw [hp]
  rfl

/-! ## ZMQClient message codec dispatch (zmq_client.py 427-472)

The configured encoding is utf-8 (the param_manager default).  A deserialize
result of none models the Python function returning None; note that Python
cannot distinguish that None from a decoded json null, a quirk recorded
where it matters. -/

/-- The json format name. -/
def fmtJson : String := "json"
/-- The string format name. -/
def fmtString : String := "string"
/-- The bytes format name. -/
def fmtBytes : String := "bytes"

/-- The json branch of _serialize_message: json.dumps then utf-8 encode; a
dumps failure (a bytes payload) raises TypeError, which the enclosing
handler catches, returning the empty byte string. -/
def jsonBytesOf (data : PyValue) : List Nat :=
  match dumps data with
  | some ds => utf8Encode ds
  | none => []

/-- The string branch of _serialize_message on a str value.  The str(data)
conversion applied to other types is outside the model (none). -/
def strBytesOf : PyValue → Option (List Nat)
  | .pystr s => some (utf8Encode s)
  | _ => none

/-- The bytes branch of _serialize_message on a bytes value.  The str(data)
conversion applied to other types is outside the model (none). -/
def bytesPayloadOf : PyValue → Option (List Nat)
  | .pybytes bs => some bs
  | _ => none

/-- _serialize_message: json format is json.dumps then encode, with every
exception caught and the empty byte string returned; the string format
encodes a str directly; the bytes format passes bytes through; an unknown
format falls back to json. -/
def serializeMessage (format : String) (data : PyValue) : Option (List Nat) :=
  if format = fmtJson then some (jsonBytesOf data)
  else if format = fmtString then strBytesOf data
  else if format = fmtBytes then bytesPayloadOf data
  else some (jsonBytesOf data)

/-- The structured-text attempt on decoded text: the parsed value when the
text is valid json, else the raw decoded string. -/
def fallbackOfText (s : List Char) : Option PyValue :=
  match loads s with
  | some v => some v
  | none => some (.pystr s)

/-- The fallback branch of _deserialize_message for an unknown format: try
utf-8 decode plus json.loads; if the text decodes but is not valid json,
return the raw decoded string; if even the decode fails, the fallback
raises again and the outer handler returns None. -/
def jsonFallback (data : List Nat) : Option PyValue :=
  (utf8Decode data).bind fallbackOfText

/-- _deserialize_message: json format decodes utf-8 then json.loads, any
exception caught by the outer handler returning None; string format decodes
utf-8; bytes format returns the bytes unchanged; any other format takes the
json-with-string-fallback path. -/
def deserializeMessage (format : String) (data : List Nat) : Option PyValue :=
  if format = fmtJson then
    (utf8Decode data).bind fun s => loads s
  else if format = fmtString then
    (utf8Decode data).map (fun s => .pystr s)
  else if format = fmtBytes then
    some (.pybytes data)
  else
    jsonFallback data

/-! ## receive_message (zmq_client.py 501-526) -/

/-- Outcome of the underlying socket recv call. -/
inductive RecvOutcome where
  | msg (data : List Nat)
  | again
  | err

/-- The recv part of receive_message: a zmq.Again (timeout or no message in
non-blocking mode) and any other receive exception both produce None;
received bytes go through the configured deserializer. -/
def recvResult (format : String) : RecvOutcome → Option PyValue
  | .msg data => deserializeMessage format data
  | .again => none
  | .err => none

/-- receive_message: an unknown socket name produces None, everything else
is the recv outcome; the registry is abstracted to its set of socket
names.  Total: nothing escapes the boundary. -/
def receive_message (sockets : List String) (socket_name : String)
    (format : String) (outcome : RecvOutcome) : Option PyValue :=
  if socket_name ∈ sockets then recvResult format outcome else none

/-! ## Subscriber loop body (zmq_client.py 716-761) -/

/-- Python truthiness of a modelled value. -/
def pyTruthy : PyValue → Bool
  | .pynone => false
  | .pybool b => b
  | .pyint n => !(n == 0)
  | .pystr s => !s.isEmpty
  | .pylist xs => !xs.isEmpty
  | .pydict kvs => !kvs.isEmpty
  | .pybytes bs => !bs.isEmpty

/-- Python x is None on a deserialized part: an absent result and the null
value are the same runtime object. -/
def isPyNone : Option PyValue → Bool
  | none => true
  | some .pynone => true
  | some _ => false

/-- The frame-3 override guard: actual_content and (not bytes or nonempty). -/
def overrideOk : Option PyValue → Bool
  | none => false
  | some v =>
    pyTruthy v && (match v with | .pybytes bs => !bs.isEmpty | _ => true)

/-- The callback guard on the resolved content: content is not None and
(not bytes or nonempty). -/
def contentOk : Option PyValue → Bool
  | none => false
  | some .pynone => false
  | some (.pybytes bs) => !bs.isEmpty
  | some _ => true

/-- One iteration of the subscriber loop on the deserialized parts of a
received multipart message: the content handed to the callback, or none
when the callback is not invoked.  No comparison of the length frame
against the payload frame appears anywhere in this path. -/
def subscriberStep (parts : List (Option PyValue)) : Option PyValue :=
  match parts with
  | [] => none
  | [p] => if isPyNone p then none else p
  | _ :: p1 :: rest =>
    let content := match rest with
      | p2 :: _ => if overrideOk p2 then p2 else p1
      | [] => p1
    if contentOk content then content else none

/-! ## Server loop body (zmq_client.py 763-794) -/

/-- One iteration of the server loop: the non-blocking receive result
(already deserialized; none covers a timeout, a receive error, an
undecodable message and a null payload alike), the handler, and whether the
socket pattern is REP.  Returns the response sent back on the socket before
the next receive, or none when nothing is sent. -/
def serverSend (isRep : Bool) (response : Option PyValue) : Option PyValue :=
  if isRep && !(isPyNone response) then response else none

def serverStep (isRep : Bool) (request : Option PyValue)
    (handler : PyValue → Option PyValue) : Option PyValue :=
  if isPyNone request then none
  else request.elim none (fun req => serverSend isRep (handler req))

/-! ## Socket registry (zmq_client.py 366-380, 411-425) -/

/-- Store a handle under a name the way a Python dict assignment does:
overwrite in place, else append. -/
def setName : List (String × Nat) → String → Nat → List (String × Nat)
  | [], n, h => [(n, h)]
  | e :: t, n, h => if e.1 = n then (n, h) :: t else e :: setName t n h

def lookupName : List (String × Nat) → String → Option Nat
  | [], _ => none
  | e :: t, n => if e.1 = n then some e.2 else lookupName t n

def removeName : List (String × Nat) → String → List (String × Nat)
  | [], _ => []
  | e :: t, n => if e.1 = n then t else e :: removeName t n

/-- Registry state: the name-to-handle dict and the handles on which close()
has been called. -/
structure Registry where
  sockets : List (String × Nat)
  closed : List Nat

/-- create_socket with a name: stores the fresh handle under the name.  The
assignment overwrites any existing entry; nothing closes the prior handle. -/
def Registry.create_socket (r : Registry) (name : String) (h : Nat) : Registry :=
  { r with sockets := setName r.sockets name h }

/-- close_socket: when the name is present, close the handle and delete the
entry, returning True; otherwise log a warning and return False. -/
def Registry.close_socket (r : Registry) (name : String) : Bool × Registry :=
  match lookupName r.sockets name with
  | some h =>
    (true, { sockets := removeName r.sockets name, closed := h :: r.closed })
  | none => (false, r)

/-! ## Connection and reconnection (zmq_client.py 200-260, ros_client.py 826-862) -/

/-- The req socket type name. -/
def reqT : String := "req"
/-- The sub socket type name. -/
def subT : String := "sub"
/-- The push socket type name. -/
def pushT : String := "push"

/-- connect_to_remote_host, abstracted over the outcome of the TCP probe and
of the socket-creation call (socket_type already lower-cased): returns
whether the protocol-level creation was attempted and the overall result.
The probe outcome feeds only a warning log line. -/
def connect_to_remote_host (probeOk : Bool) (socket_type : String) (createOk : Bool) :
    Bool × Bool :=
  if socket_type = reqT || socket_type = subT || socket_type = pushT then
    (true, createOk)
  else
    (false, false)

/-- Result of a start() call tree. -/
structure StartResult where
  ok : Bool
  reconnect_count : Nat
  connect_calls : Nat
  depth : Nat
  running : Bool
deriving DecidableEq

/-- ROSBridgeClient.start: the connectivity probe aborts start when it
fails; a failed connect with auto-reconnect and budget left sleeps,
increments the counter and retries through return self.start(), a non-tail
recursive Python call that stacks one frame per retry (depth records the
nesting); a successful connect resets the counter and sets running.  probe
and connectOk give the outcome of the k-th probe/connect call.  The fuel is
structural bookkeeping only: the retry guard count < max_attempts bounds the
recursion, so the fuel chosen by the wrapper is never exhausted. -/
def ROSBridgeClientStartAux (probe connectOk : Nat → Bool) (auto_reconnect : Bool)
    (max_attempts : Nat) : Nat → Nat → StartResult
  | 0, count => ⟨false, count, 0, 1, false⟩
  | Nat.succ fuel, count =>
    if probe count = false then ⟨false, count, 0, 1, false⟩
    else if connectOk count then ⟨true, 0, 1, 1, true⟩
    else if auto_reconnect && decide (count < max_attempts) then
      let r := ROSBridgeClientStartAux probe connectOk auto_reconnect max_attempts fuel
        (count + 1)
      ⟨r.ok, r.reconnect_count, r.connect_calls + 1, r.depth + 1, r.running⟩
    else ⟨false, count, 1, 1, false⟩

/-- ROSBridgeClient.start from a fresh client (reconnect_count 0,
running False). -/
def ROSBridgeClientStart (probe connectOk : Nat → Bool) (auto_reconnect : Bool)
    (max_attempts : Nat) : StartResult :=
  ROSBridgeClientStartAux probe connectOk auto_reconnect max_attempts (max_attempts + 1) 0

/-! ## Claim theorems for the codec (C3, C8) -/

/-- C3: codec round trip.  Under the structured-text (json) format,
deserializing the serialization of any serializable payload returns it;
under the raw-string format the same holds for every str; under the
raw-bytes format for every byte sequence. -/
theorem codec_roundtrip (P : PyValue) (hok : JsonOk P) (s : List Char) (b : List Nat) :
    (∃ bs, serializeMessage fmtJson P = some bs ∧
      deserializeMessage fmtJson bs = some P) ∧
    (serializeMessage fmtString (.pystr s) = some (utf8Encode s) ∧
      deserializeMessage fmtString (utf8Encode s) = some (.pystr s)) ∧
    (serializeMessage fmtBytes (.pybytes b) = some b ∧
      deserializeMessage fmtBytes b = some (.pybytes b)) := by
  refine ⟨?_, ⟨?_, ?_⟩, ⟨?_, ?_⟩⟩
  · obtain ⟨ds, hds⟩ := dumps_isSome P hok
    refine ⟨utf8Encode ds, ?_, ?_⟩
    · rw [serializeMessage, if_pos rfl]
      congr 1
      rw [jsonBytesOf, hds]
    · rw [deserializeMessage, if_pos rfl, utf8Decode_utf8Encode]
      simp only [Option.some_bind]
      exact loads_dumps P hok ds hds
  · rw [serializeMessage, if_neg (by decide), if_pos rfl, strBytesOf]
  · rw [deserializeMessage, if_neg (by decide), if_pos rfl, utf8Decode_utf8Encode]
    rfl
  · rw [serializeMessage, if_neg (by decide), if_neg (by decide), if_pos rfl, bytesPayloadOf]
  · rw [deserializeMessage, if_neg (by decide), if_neg (by decide), if_pos rfl]

/-- Witness for C3 at the payload 5, the string o and the bytes [0, 255]. -/
theorem codec_roundtrip_witness :
    (∃ bs, serializeMessage fmtJson (.pyint 5) = some bs ∧
      deserializeMessage fmtJson bs = some (.pyint 5)) ∧
    (serializeMessage fmtString (.pystr [Char.ofNat 111])
        = some (utf8Encode [Char.ofNat 111]) ∧
      deserializeMessage fmtString (utf8Encode [Char.ofNat 111])
        = some (.pystr [Char.ofNat 111])) ∧
    (serializeMessage fmtBytes (.pybytes [0, 255]) = some [0, 255] ∧
      deserializeMessage fmtBytes [0, 255] = some (.pybytes [0, 255])) :=
  codec_roundtrip (.pyint 5) (JsonOk.ok_int 5) [Char.ofNat 111] [0, 255]

/-- An unknown format name used to exercise the fallback path. -/
def fmtUnknown : String := "xml"

/-- C8: deserializing under an unknown or unset format takes the
structured-text path: whenever the json format yields a value, the unknown
format yields that same value; and when the bytes decode as text but json
parsing fails, the raw decoded string is returned rather than raising. -/
theorem deserialize_unknown_format (fmt : String) (data : List Nat)
    (h1 : fmt ≠ fmtJson) (h2 : fmt ≠ fmtString) (h3 : fmt ≠ fmtBytes) :
    (∀ v, deserializeMessage fmtJson data = some v →
      deserializeMessage fmt data = some v) ∧
    (∀ s, utf8Decode data = some s → loads s = none →
      deserializeMessage fmt data = some (.pystr s)) := by
  constructor
  · intro v hv
    rw [deserializeMessage, if_pos rfl] at hv
    rw [deserializeMessage, if_neg h1, if_neg h2, if_neg h3]
    cases hd : utf8Decode data with
    | none => rw [hd] at hv; simp at hv
    | some s =>
        rw [hd] at hv
        simp only [Option.some_bind] at hv
        rw [jsonFallback, hd]
        simp only [Option.some_bind]
        rw [fallbackOfText, hv]
  · intro s hs hl
    rw [deserializeMessage, if_neg h1, if_neg h2, if_neg h3, jsonFallback, hs]
    simp only [Option.some_bind]
    rw [fallbackOfText, hl]

theorem parseValue_single_a (f : Nat) : parseValue (Nat.succ f) [Char.ofNat 97] = none := by
  rw [parseValue, skipWs_not_ws _ _ (by decide), parseValueTok,
    if_neg (by decide), if_neg (by decide), if_neg (by decide), if_neg (by decide),
    if_neg (by decide), if_neg (by decide), if_neg (by decide)]

theorem loads_single_a : loads [Char.ofNat 97] = none := by
  rw [loads]
  rw [show 2 * ([Char.ofNat 97] : List Char).length + 2 = Nat.succ 3 from rfl]
  rw [parseValue_single_a 3]

/-- Witness for C8: format xml on the bytes of the text a (invalid json)
returns the raw string a. -/
theorem deserialize_unknown_format_witness :
    deserializeMessage fmtUnknown (utf8Encode [Char.ofNat 97])
      = some (.pystr [Char.ofNat 97]) :=
  (deserialize_unknown_format fmtUnknown (utf8Encode [Char.ofNat 97])
    (by decide) (by decide) (by decide)).2 [Char.ofNat 97]
    (utf8Decode_utf8Encode [Char.ofNat 97]) loads_single_a

/-! ## Claim theorems for receive_message (C10) -/

/-- A sample socket name. -/
def sName : String := "s"

/-- C10: receive_message returns None in each non-success situation, which
is why a None result does not tell an absent socket, an empty poll, a
receive error and an undecodable message apart: an unknown socket name, a
zmq.Again (timeout or no message in non-blocking mode), any other receive
error, and bytes the configured format fails to deserialize all map to
None, and the function is total (never raises past its boundary). -/
theorem receive_message_none_cases (sockets : List String) (name : String)
    (format : String) (outcome : RecvOutcome) (data : List Nat) :
    (name ∉ sockets → receive_message sockets name format outcome = none) ∧
    (outcome = .again → receive_message sockets name format outcome = none) ∧
    (outcome = .err → receive_message sockets name format outcome = none) ∧
    (outcome = .msg data → deserializeMessage format data = none →
      receive_message sockets name format outcome = none) := by
  refine ⟨?_, ?_, ?_, ?_⟩
  · intro h
    rw [receive_message, if_neg h]
  · intro h
    subst h
    rw [receive_message]
    by_cases hm : name ∈ sockets
    · rw [if_pos hm, recvResult]
    · rw [if_neg hm]
  · intro h
    subst h
    rw [receive_message]
    by_cases hm : name ∈ sockets
    · rw [if_pos hm, recvResult]
    · rw [if_neg hm]
  · intro h hdes
    subst h
    rw [receive_message]
    by_cases hm : name ∈ sockets
    · rw [if_pos hm, recvResult]
      exact hdes
    · rw [if_neg hm]

/-- Witness for C10: unknown socket, empty poll, receive error, and json
bytes that do not decode, all at concrete inputs. -/
theorem receive_message_none_cases_witness :
    receive_message [] sName fmtJson .again = none ∧
    receive_message [sName] sName fmtJson .again = none ∧
    receive_message [sName] sName fmtJson .err = none ∧
    receive_message [sName] sName fmtJson (.msg [255]) = none :=
  ⟨(receive_message_none_cases [] sName fmtJson .again [255]).1 (by simp),
   (receive_message_none_cases [sName] sName fmtJson .again [255]).2.1 rfl,
   (receive_message_none_cases [sName] sName fmtJson .err [255]).2.2.1 rfl,
   (receive_message_none_cases [sName] sName fmtJson (.msg [255]) [255]).2.2.2 rfl rfl⟩

/-! ## Claim theorems for the subscriber loop (C2) -/

/-- The deserialized parts of a multipart message under the bytes format
(the format the publishing example configures), as receive_multipart_message
produces them: each frame passes through unchanged. -/
def bytesParts (frames : List (List Nat)) : List (Option PyValue) :=
  frames.map (fun f => deserializeMessage fmtBytes f)

/-- C2 counterexample: a frame triple whose declared length (5) differs
from the actual payload length (3) is not rejected: the subscriber path
delivers the payload to the callback, with no malformed-message signal
anywhere. -/
theorem subscriber_length_mismatch_cex :
    de32 (le32 5) ≠ ([97, 98, 99] : List Nat).length ∧
    subscriberStep (bytesParts [[116], le32 5, [97, 98, 99]])
      = some (.pybytes [97, 98, 99]) :=
  ⟨by decide, rfl⟩

/-- C2 amended: the frame-receiving path performs no length validation at
all: whatever the length frame declares, a 3-frame message with a nonempty
payload frame is delivered to the callback unchanged, and the step is a
total function, so the loop neither crashes nor signals (the loop
additionally catches and logs exceptions, continuing while
continue_on_error holds). -/
theorem subscriberStep_no_validation (topic lenframe payload : List Nat)
    (h : payload ≠ []) :
    subscriberStep (bytesParts [topic, lenframe, payload])
      = some (.pybytes payload) := by
  cases payload with
  | nil => exact absurd rfl h
  | cons a t => rfl

/-- Witness for C2 amended at a concrete mismatched triple. -/
theorem subscriberStep_no_validation_witness :
    subscriberStep (bytesParts [[116], le32 7, [1, 2]]) = some (.pybytes [1, 2]) :=
  subscriberStep_no_validation [116] (le32 7) [1, 2] (by decide)

/-! ## Claim theorems for the server loop (C7) -/

/-- C7 counterexample: a message received on a REP socket whose handler
returns None produces no reply before the next receive. -/
theorem server_reply_missing_cex :
    serverStep true (some (.pyint 1)) (fun _ => Option.none) = none := rfl

/-- C7 amended: on a REP socket the loop replies exactly when the received
message deserialized to a non-None value and the handler returned a
non-None response; that response is sent before the next receive.  A None
request (no message, undecodable message or null payload) or a None handler
result leads straight to the next receive with no send, and a non-REP
socket never sends. -/
theorem serverStep_spec (request : Option PyValue) (handler : PyValue → Option PyValue)
    (isRep : Bool) :
    (∀ req resp, request = some req → isPyNone (some req) = false →
      handler req = some resp → isPyNone (some resp) = false →
      serverStep true request handler = some resp) ∧
    (isPyNone request = true → serverStep isRep request handler = none) ∧
    (∀ req, request = some req → isPyNone (handler req) = true →
      serverStep isRep request handler = none) ∧
    (∀ req, request = some req → serverStep false request handler = none) := by
  refine ⟨?_, ?_, ?_, ?_⟩
  · intro req resp hreq hnn hh hrn
    subst hreq
    rw [serverStep, if_neg (by rw [hnn]; exact Bool.false_ne_true)]
    show serverSend true (handler req) = some resp
    rw [serverSend, hh, if_pos (by rw [hrn]; rfl)]
  · intro h
    rw [serverStep, if_pos h]
  · intro req hreq hh
    subst hreq
    rw [serverStep]
    by_cases hn : isPyNone (some req) = true
    · rw [if_pos hn]
    · rw [if_neg hn]
      show serverSend isRep (handler req) = none
      rw [serverSend, if_neg (by rw [hh]; simp)]
  · intro req hreq
    subst hreq
    rw [serverStep]
    by_cases hn : isPyNone (some req) = true
    · rw [if_pos hn]
    · rw [if_neg hn]
      show serverSend false (handler req) = none
      rw [serverSend, if_neg (by simp)]

/-- Witness for C7 amended: a REP socket with the default echo-style
handler sends the response; a None-returning handler sends nothing. -/
theorem serverStep_spec_witness :
    serverStep true (some (.pyint 1)) (fun v => some v) = some (.pyint 1) ∧
    serverStep true (some (.pyint 1)) (fun _ => Option.none) = none ∧
    serverStep false (some (.pyint 1)) (fun v => some v) = none :=
  ⟨(serverStep_spec (some (.pyint 1)) (fun v => some v) true).1 (.pyint 1) (.pyint 1)
      rfl rfl rfl rfl,
   (serverStep_spec (some (.pyint 1)) (fun _ => Option.none) true).2.2.1 (.pyint 1) rfl rfl,
   (serverStep_spec (some (.pyint 1)) (fun v => some v) false).2.2.2 (.pyint 1) rfl⟩

/-! ## Claim theorems for the socket registry (C9) -/

theorem lookup_eq_none_of_not_mem (s : List (String × Nat)) (n : String)
    (h : n ∉ s.map Prod.fst) : lookupName s n = none := by
  induction s with
  | nil => rfl
  | cons e t ih =>
      rw [lookupName]
      rw [List.map_cons, List.mem_cons] at h
      push_neg at h
      rw [if_neg (fun hc => h.1 hc.symm)]
      exact ih h.2

theorem lookup_setName (s : List (String × Nat)) (n : String) (h : Nat) :
    lookupName (setName s n h) n = some h := by
  induction s with
  | nil =>
      rw [setName, lookupName, if_pos rfl]
  | cons e t ih =>
      rw [setName]
      by_cases he : e.1 = n
      · rw [if_pos he, lookupName, if_pos rfl]
      · rw [if_neg he, lookupName, if_neg he]
        exact ih

theorem mem_keys_setName (s : List (String × Nat)) (n : String) (h : Nat) (x : String)
    (hx : x ∈ (setName s n h).map Prod.fst) : x = n ∨ x ∈ s.map Prod.fst := by
  induction s with
  | nil =>
      rw [setName] at hx
      simp at hx
      exact Or.inl hx
  | cons e t ih =>
      rw [setName] at hx
      by_cases he : e.1 = n
      · rw [if_pos he] at hx
        rw [List.map_cons, List.mem_cons] at hx
        rcases hx with hx | hx
        · exact Or.inl hx
        · exact Or.inr (by rw [List.map_cons, List.mem_cons]; exact Or.inr hx)
      · rw [if_neg he] at hx
        rw [List.map_cons, List.mem_cons] at hx
        rcases hx with hx | hx
        · exact Or.inr (by rw [List.map_cons, List.mem_cons]; exact Or.inl hx)
        · rcases ih hx with hx2 | hx2
          · exact Or.inl hx2
          · exact Or.inr (by rw [List.map_cons, List.mem_cons]; exact Or.inr hx2)

theorem setName_keys_nodup (s : List (String × Nat)) (n : String) (h : Nat)
    (hnd : (s.map Prod.fst).Nodup) : ((setName s n h).map Prod.fst).Nodup := by
  induction s with
  | nil => simp [setName]
  | cons e t ih =>
      rw [List.map_cons, List.nodup_cons] at hnd
      rw [setName]
      by_cases he : e.1 = n
      · rw [if_pos he, List.map_cons, List.nodup_cons]
        refine ⟨fun hc => hnd.1 ?_, hnd.2⟩
        rw [he]
        exact hc
      · rw [if_neg he, List.map_cons, List.nodup_cons]
        refine ⟨fun hc => ?_, ih hnd.2⟩
        rcases mem_keys_setName t n h e.1 hc with hc2 | hc2
        · exact he hc2
        · exact hnd.1 hc2

theorem mem_keys_removeName (s : List (String × Nat)) (n : String) (x : String)
    (hx : x ∈ (removeName s n).map Prod.fst) : x ∈ s.map Prod.fst := by
  induction s with
  | nil => exact hx
  | cons e t ih =>
      rw [removeName] at hx
      by_cases he : e.1 = n
      · rw [if_pos he] at hx
        rw [List.map_cons, List.mem_cons]
        exact Or.inr hx
      · rw [if_neg he] at hx
        rw [List.map_cons, List.mem_cons] at hx ⊢
        rcases hx with hx | hx
        · exact Or.inl hx
        · exact Or.inr (ih hx)

theorem removeName_keys_nodup (s : List (String × Nat)) (n : String)
    (hnd : (s.map Prod.fst).Nodup) : ((removeName s n).map Prod.fst).Nodup := by
  induction s with
  | nil => simp [removeName]
  | cons e t ih =>
      rw [List.map_cons, List.nodup_cons] at hnd
      rw [removeName]
      by_cases he : e.1 = n
      · rw [if_pos he]
        exact hnd.2
      · rw [if_neg he, List.map_cons, List.nodup_cons]
        exact ⟨fun hc => hnd.1 (mem_keys_removeName t n e.1 hc), ih hnd.2⟩

theorem lookup_removeName (s : List (String × Nat)) (n : String)
    (hnd : (s.map Prod.fst).Nodup) : lookupName (removeName s n) n = none := by
  induction s with
  | nil => rfl
  | cons e t ih =>
      rw [List.map_cons, List.nodup_cons] at hnd
      rw [removeName]
      by_cases he : e.1 = n
      · rw [if_pos he]
        apply lookup_eq_none_of_not_mem
        intro hc
        apply hnd.1
        rw [he]
        exact hc
      · rw [if_neg he, lookupName, if_neg he]
        exact ih hnd.2

/-- C9 counterexample: re-creating under a name that maps to the live
handle 1 installs handle 2 while handle 1 is never closed (the closed set
stays empty), so the replacement happens without the prior handle having
been closed. -/
theorem create_socket_replaces_without_close_cex :
    lookupName ((Registry.create_socket ⟨[(sName, 1)], []⟩ sName 2).sockets) sName
      = some 2 ∧
    (Registry.create_socket ⟨[(sName, 1)], []⟩ sName 2).closed = [] :=
  ⟨rfl, rfl⟩

/-- C9 amended: each name maps to at most one registry entry (creation
overwrites in place and both operations preserve key uniqueness), but
re-creating under an existing name replaces the prior handle WITHOUT
closing it: the closed set is untouched, so the prior handle leaks open.
close_socket closes the handle and removes the name, returning a not-found
False, not a crash, on an absent name. -/
theorem registry_spec (r : Registry) (name : String) (h h1 : Nat)
    (hnd : (r.sockets.map Prod.fst).Nodup) :
    (lookupName (r.create_socket name h).sockets name = some h ∧
      (r.create_socket name h).closed = r.closed) ∧
    ((r.create_socket name h).sockets.map Prod.fst).Nodup ∧
    (lookupName r.sockets name = some h1 →
      r.close_socket name = (true,
        { sockets := removeName r.sockets name, closed := h1 :: r.closed }) ∧
      lookupName (removeName r.sockets name) name = none) ∧
    (lookupName r.sockets name = none → r.close_socket name = (false, r)) ∧
    ((removeName r.sockets name).map Prod.fst).Nodup := by
  refine ⟨⟨?_, ?_⟩, ?_, ?_, ?_, ?_⟩
  · exact lookup_setName r.sockets name h
  · rfl
  · exact setName_keys_nodup r.sockets name h hnd
  · intro hl
    constructor
    · rw [Registry.close_socket, hl]
    · exact lookup_removeName r.sockets name hnd
  · intro hl
    rw [Registry.close_socket, hl]
  · exact removeName_keys_nodup r.sockets name hnd

/-- Witness for C9 amended on the single-entry registry. -/
theorem registry_spec_witness :
    (lookupName ((Registry.create_socket ⟨[(sName, 1)], []⟩ sName 2).sockets) sName
        = some 2 ∧
      (Registry.create_socket ⟨[(sName, 1)], []⟩ sName 2).closed = []) ∧
    (Registry.close_socket ⟨[(sName, 1)], []⟩ sName
        = (true, { sockets := [], closed := [1] }) ∧
      lookupName [] sName = none) := by
  have h := registry_spec ⟨[(sName, 1)], []⟩ sName 2 1 (by simp)
  refine ⟨h.1, ?_⟩
  have h2 := h.2.2.1 (by rw [lookupName, if_pos rfl])
  exact h2

/-! ## Claim theorems for connection and reconnection (C5, C6) -/

/-- C6 counterexample: in the ROSBridge client a failed pre-flight probe by
itself aborts start before any protocol-level connect call, even when the
connection would succeed; with the probe passing, the connect call happens. -/
theorem probe_abort_cex :
    (ROSBridgeClientStart (fun _ => false) (fun _ => true) true 3).connect_calls = 0 ∧
    (ROSBridgeClientStart (fun _ => false) (fun _ => true) true 3).ok = false ∧
    (ROSBridgeClientStart (fun _ => true) (fun _ => true) true 3).connect_calls = 1 :=
  ⟨rfl, rfl, rfl⟩

/-- C6 amended: in the ZMQ client, connect_to_remote_host behaves
identically whether the probe failed or passed (the probe feeds only a
warning log) and for every supported socket type the protocol-level
creation is attempted; in the ROSBridge client, however, start aborts on a
failed probe before attempting the protocol-level connection. -/
theorem probe_failure_behavior (socket_type : String) (createOk : Bool)
    (m : Nat) (connectOk : Nat → Bool) :
    connect_to_remote_host false socket_type createOk
      = connect_to_remote_host true socket_type createOk ∧
    ((socket_type = reqT ∨ socket_type = subT ∨ socket_type = pushT) →
      connect_to_remote_host false socket_type createOk = (true, createOk)) ∧
    ((ROSBridgeClientStart (fun _ => false) connectOk true m).connect_calls = 0 ∧
      (ROSBridgeClientStart (fun _ => false) connectOk true m).ok = false) := by
  refine ⟨rfl, ?_, rfl, rfl⟩
  intro hst
  rcases hst with h | h | h <;>
    rw [connect_to_remote_host, if_pos (by rw [h]; simp)]

/-- Witness for C6 amended at socket type req with a failing probe. -/
theorem probe_failure_behavior_witness :
    connect_to_remote_host false reqT true = (true, true) :=
  (probe_failure_behavior reqT true 3 (fun _ => true)).2.1 (Or.inl rfl)

theorem startAux_all_fail (m : Nat) : ∀ (fuel count : Nat), count ≤ m → m - count < fuel →
    ROSBridgeClientStartAux (fun _ => true) (fun _ => false) true m fuel count
      = ⟨false, m, m - count + 1, m - count + 1, false⟩ := by
  intro fuel
  induction fuel with
  | zero =>
      intro count h1 h2
      omega
  | succ f ih =>
      intro count h1 h2
      rw [ROSBridgeClientStartAux]
      rw [if_neg (by simp), if_neg (by simp)]
      by_cases hc : count < m
      · rw [if_pos (by simp [hc])]
        rw [ih (count + 1) (by omega) (by omega)]
        have e1 : m - (count + 1) + 1 + 1 = m - count + 1 := by omega
        simp only [e1]
      · rw [if_neg (by simp [hc])]
        have hcm : count = m := by omega
        subst hcm
        simp [Nat.sub_self]

/-- C5 amended: with auto-reconnect on, every probe passing and every
connect failing, start makes exactly maxReconnectAttempts retries
(maxReconnectAttempts + 1 connect calls in all), incrementing the counter
before each retry, and finally returns False with running still False.  The
retry is implemented as bounded recursion through return self.start(), not
a loop: the nesting depth of start frames is maxReconnectAttempts + 1, one
stack frame per attempt. -/
theorem start_exhausts_attempts (m : Nat) :
    ROSBridgeClientStart (fun _ => true) (fun _ => false) true m
      = ⟨false, m, m + 1, m + 1, false⟩ := by
  rw [ROSBridgeClientStart, startAux_all_fail m (m + 1) 0 (by omega) (by omega)]
  simp

/-- C5 counterexample: the retry grows the call stack per attempt: with 3
permitted attempts the nesting depth of start frames is 4, against 1 with
none, so the implementation is recursion whose stack grows with the attempt
count, not a constant-stack loop. -/
theorem start_stack_growth_cex :
    (ROSBridgeClientStart (fun _ => true) (fun _ => false) true 3).depth = 4 ∧
    (ROSBridgeClientStart (fun _ => true) (fun _ => false) true 0).depth = 1 :=
  ⟨rfl, rfl⟩

end Rosbridge
